import Mathlib

/-!
Verification of the pdf2mp3 text-extraction pipeline.

Shallow embedding of the pure text-processing core of the repository:
`split_pdf.py` (`clean_pdf_text`, `TextQualityFilter`), `layout_analysis.py`
(`calculate_iou` and the IoU deduplication step of `analyze_image`) and
`process_pdf.py` (`page_num`, `group_text_files`).

Text is modelled as `List Char`.  Python's regex character classes `\w` and
`\s` are modelled on the ASCII fragment (`Char.isAlphanum` plus `_`, and the
six ASCII whitespace characters); Python's float arithmetic on line-length
statistics is modelled exactly over `ℚ`, with the single square root
`std = variance ** 0.5` eliminated by the algebraic equivalence
`mean + 2·√v < avg ↔ mean < avg ∧ 4·v < (avg − mean)²` (valid for `v ≥ 0`),
which is proved against `Real.sqrt` below.
-/

/-- Model of Python's regex class `\w` (word character), ASCII fragment:
letters, digits and underscore. -/
def isWordChar (c : Char) : Bool :=
  c.isAlphanum || c = '_'

/-- Model of Python's regex class `\s` / `str` whitespace, ASCII fragment:
space, tab, newline, carriage return, vertical tab, form feed. -/
def isSpaceChar (c : Char) : Bool :=
  c = ' ' || c = '\t' || c = '\n' || c = '\r' || c = '\x0b' || c = '\x0c'

/-- Remove trailing whitespace (the right half of Python's `str.strip`). -/
def rstrip : List Char → List Char
  | [] => []
  | c :: cs =>
    let r := rstrip cs
    if r = [] ∧ isSpaceChar c then [] else c :: r

/-- Python's `str.strip()`: drop leading and trailing whitespace. -/
def stripWS (l : List Char) : List Char :=
  rstrip (l.dropWhile isSpaceChar)

/-- Python's `text.split('\n')`: split at every newline, keeping empty
segments (so `""` splits to `[""]`). -/
def splitNL : List Char → List (List Char)
  | [] => [[]]
  | c :: cs =>
    if c = '\n' then [] :: splitNL cs
    else
      match splitNL cs with
      | [] => [[c]]
      | g :: gs => (c :: g) :: gs

/-- A list of characters counts as a non-blank line when it contains at
least one non-whitespace character (Python's `l.strip()` truthiness). -/
def hasInk (l : List Char) : Bool :=
  l.any (fun c => !isSpaceChar c)

/-- Scanner state for `hyphenJoin`, tracking how the previous character
relates to a possible `(\w+)-\n(\w+)` match:
`non` = previous char is not a word char (or start of input);
`avail` = inside a word run that may serve as the first group;
`consumed` = inside a word run that was already used as the second group of
an earlier match (Python's `re.sub` resumes scanning after the whole match,
so such a run cannot start a new one). -/
inductive HJState where
  | non
  | avail
  | consumed
deriving DecidableEq

/-- State update of `hyphenJoin` after reading a word character. -/
def HJState.step : HJState → HJState
  | .non => .avail
  | s => s

/-- First rule of `clean_pdf_text` (split_pdf.py line 32):
`re.sub(r'(\w+)-\n(\w+)', r'\1\2', raw_text)`.  The built-in substitution
deletes the `-` and the newline of every (leftmost, non-overlapping) match;
all other characters are copied, so the scan below emits characters one at
a time and removes `-\n` exactly when it sits between an available word run
and a following word character. -/
def hyphenJoin : HJState → List Char → List Char
  | _, [] => []
  | st, c :: cs =>
    if isWordChar c then c :: hyphenJoin st.step cs
    else if c = '-' ∧ st = .avail then
      match cs with
      | '\n' :: d :: cs2 =>
        if isWordChar d then d :: hyphenJoin .consumed cs2
        else '-' :: hyphenJoin .non ('\n' :: d :: cs2)
      | l => '-' :: hyphenJoin .non l
    else c :: hyphenJoin .non cs
termination_by _ l => l.length
decreasing_by all_goals simp_arith [*]

/-- Second rule of `clean_pdf_text` (line 35):
`re.sub(r'(?<!\n)\n(?!\n)', ' ', text)` — a newline with no newline
neighbour becomes a space.  `prevNL` records whether the previous input
character was a newline (the lookbehind). -/
def nlToSpace (prevNL : Bool) : List Char → List Char
  | [] => []
  | c :: cs =>
    if c = '\n' then
      (if ¬prevNL ∧ cs.head? ≠ some '\n' then ' ' else '\n') :: nlToSpace true cs
    else c :: nlToSpace false cs

/-- Third rule of `clean_pdf_text` (line 38): `re.sub(r'\n{2,}', '\n\n', text)`.
Every maximal run of two or more newlines is replaced by exactly two, i.e.
the first two newlines of each run are kept and the rest dropped; `k` counts
the newlines already seen in the current run. -/
def collapseNL (k : Nat) : List Char → List Char
  | [] => []
  | c :: cs =>
    if c = '\n' then
      (if k < 2 then ['\n'] else []) ++ collapseNL (k + 1) cs
    else c :: collapseNL 0 cs

/-- Fourth rule of `clean_pdf_text` (line 41): `re.sub(r' +', ' ', text)`.
Each run of spaces keeps its first space and drops the rest; `prevSp`
records whether the previous character was a space. -/
def collapseSp (prevSp : Bool) : List Char → List Char
  | [] => []
  | c :: cs =>
    if c = ' ' then
      (if prevSp then [] else [' ']) ++ collapseSp true cs
    else c :: collapseSp false cs

/-- True when the head of the list, if any, is not a word character: the
word-boundary lookahead `\b` after a match ending in a word character. -/
def headNotWord : List Char → Bool
  | [] => true
  | d :: _ => !isWordChar d

/-- True when the last character of the list, if any, is not a word
character: the word-boundary lookbehind `\b` before a match starting in a
word character. -/
def lastNotWord (l : List Char) : Bool :=
  match l.getLast? with
  | none => true
  | some e => !isWordChar e

/-- Whole-word substitution `re.sub(r'\b' + w + r'\b', repl, text)` for a
word `w = w0 :: wr` consisting of word characters and ending in a word
character (as all three OCR fixes of `clean_pdf_text` lines 44-46 do).
`p` records whether the previous input character was a word character, so
`¬p` is the leading word boundary; `headNotWord` is the trailing one.
After a match the scan resumes behind it with `p = true` (the last matched
character is a word character). -/
def replaceWord (w0 : Char) (wr repl : List Char) : Bool → List Char → List Char
  | _, [] => []
  | p, c :: cs =>
    if c = w0 ∧ p = false ∧ wr.isPrefixOf cs ∧ headNotWord (cs.drop wr.length) then
      repl ++ replaceWord w0 wr repl true (cs.drop wr.length)
    else c :: replaceWord w0 wr repl (isWordChar c) cs
termination_by _ l => l.length
decreasing_by
  · simp only [List.length_cons]
    exact Nat.lt_succ_of_le (Nat.le_trans (List.length_drop _ _ ▸ Nat.sub_le _ _) (Nat.le_refl _))
  · simp

/-- Fifth rule of `clean_pdf_text` (line 44): `re.sub(r'\bAl\b', 'AI', text)`. -/
def fixAl (l : List Char) : List Char :=
  replaceWord 'A' ['l'] ('A' :: ['I']) false l

/-- Sixth rule of `clean_pdf_text` (line 45):
`re.sub(r'\bOpenAl\b', 'OpenAI', text)`. -/
def fixOpenAl (l : List Char) : List Char :=
  replaceWord 'O' "penAl".data "OpenAI".data false l

/-- Seventh rule of `clean_pdf_text` (line 46): `re.sub(r'\bEl\b', 'AI', text)`. -/
def fixEl (l : List Char) : List Char :=
  replaceWord 'E' ['l'] ('A' :: ['I']) false l

/-- `clean_pdf_text` (split_pdf.py lines 30-48): the seven regex rules in
source order followed by `str.strip()`. -/
def clean_pdf_text (raw_text : List Char) : List Char :=
  stripWS (fixEl (fixOpenAl (fixAl (collapseSp false (collapseNL 0
    (nlToSpace false (hyphenJoin .non raw_text)))))))

/-- State of `TextQualityFilter` (split_pdf.py lines 86-141): the running
baseline `self.line_lengths`, the recorded lengths of all accepted
non-blank lines. -/
structure TextQualityFilter where
  line_lengths : List Nat
deriving DecidableEq

/-- The non-blank lines of a block:
`[l for l in text.split('\n') if l.strip()]` (lines 119 and 139). -/
def inkLines (text : List Char) : List (List Char) :=
  (splitNL text).filter hasInk

/-- `TextQualityFilter._get_stats` (lines 90-96) up to the final square
root: the mean and the variance of the recorded line lengths (the code
also returns `std = variance ** 0.5`; comparisons against `mean + 2*std`
are phrased below through the variance, see `outlier_iff_sq`). -/
def TextQualityFilter.get_stats (f : TextQualityFilter) : ℚ × ℚ :=
  if f.line_lengths = [] then (0, 0)
  else
    let n : ℚ := f.line_lengths.length
    let mean := (f.line_lengths.map (fun x => (x : ℚ))).sum / n
    let variance := (f.line_lengths.map (fun x => ((x : ℚ) - mean) ^ 2)).sum / n
    (mean, variance)

/-- The comparison `block_avg_len > mean + 2 * std` of line 132, expressed
through the variance: for `v ≥ 0` one has
`mean + 2·√v < avg ↔ (mean < avg ∧ 4·v < (avg − mean)²)`
(proved as `outlier_iff_sq` below). -/
def isOutlierAvg (avg mean variance : ℚ) : Bool :=
  decide (mean < avg) && decide (4 * variance < (avg - mean) ^ 2)

/-- Rejection reasons of `TextQualityFilter.is_valid` (lines 98-135), one
constructor per `return` statement; the numeric payloads interpolated into
the Python reason strings are dropped, keeping the constant prefix that
identifies each reason (e.g. `"Line length outlier"`). -/
inductive Reason where
  | emptyText
  | whitespaceOnly
  | lowDensity
  | noValidLines
  | lineLengthOutlier
  | ok
deriving DecidableEq

/-- The text with all whitespace removed:
`clean = re.sub(r'\s', '', text)` (line 107). -/
def cleanChars (text : List Char) : List Char :=
  text.filter (fun c => !isSpaceChar c)

/-- The alphanumeric-density test of lines 111-114: the count of
`[a-zA-Z0-9]` characters over all non-whitespace characters is below 0.5. -/
def densityLow (text : List Char) : Bool :=
  decide ((((cleanChars text).filter Char.isAlphanum).length : ℚ) / ((cleanChars text).length : ℚ) < 1 / 2)

/-- `block_avg_len` of line 123: mean length of the non-blank lines. -/
def blockAvg (text : List Char) : ℚ :=
  (((inkLines text).map List.length).map (fun x => (x : ℚ))).sum / ((inkLines text).length : ℚ)

/-- `TextQualityFilter.is_valid` (lines 98-135).  The method only reads
`self.line_lengths`; the embedding returns the verdict together with the
(unchanged) state, one pair per Python `return`. -/
def TextQualityFilter.is_valid (f : TextQualityFilter) (text : List Char) :
    (Bool × Reason) × TextQualityFilter :=
  if stripWS text = [] then ((false, .emptyText), f)
  else if cleanChars text = [] then ((false, .whitespaceOnly), f)
  else if densityLow text then ((false, .lowDensity), f)
  else if inkLines text = [] then ((false, .noValidLines), f)
  else if 5 < f.line_lengths.length ∧ isOutlierAvg (blockAvg text) f.get_stats.1 f.get_stats.2 then
    ((false, .lineLengthOutlier), f)
  else ((true, .ok), f)

/-- `TextQualityFilter.add` (lines 137-141): append the length of every
non-blank line of the block to the baseline. -/
def TextQualityFilter.add (f : TextQualityFilter) (text : List Char) : TextQualityFilter :=
  ⟨f.line_lengths ++ (inkLines text).map List.length⟩

/-- A candidate block handed to `TextQualityFilter.deduplicate`: the Python
dicts `{'text': ..., 'img': ..., 'id': ...}`, with the fields other than
`'text'` (never inspected by `deduplicate`) abstracted into a tag. -/
structure Cand where
  text : List Char
  tag : Nat
deriving DecidableEq

/-- Normalisation used by `deduplicate` (line 153):
`" ".join(c_text.split()).lower()` — split on whitespace runs, rejoin with
single spaces, lowercase. -/
def normText (l : List Char) : List Char :=
  (List.intercalate [' '] (l.splitOnP isSpaceChar |>.filter (· ≠ []))).map Char.toLower

/-- Inner loop of `deduplicate` (lines 158-172): scan the accepted list;
if the candidate's normalised text is contained in an accepted block,
drop the candidate (`some` with the list unchanged); if an accepted
block's normalised text is contained in the candidate, replace that block
(`some` with the entry swapped); otherwise `none` (not handled). -/
def dedupScan (cand : Cand) : List Cand → Option (List Cand)
  | [] => none
  | acc :: rest =>
    if normText cand.text <:+: normText acc.text then some (acc :: rest)
    else if normText acc.text <:+: normText cand.text then some (cand :: rest)
    else (dedupScan cand rest).map (acc :: ·)

/-- Outer loop of `deduplicate` (lines 149-177), folding candidates into
the accumulating `accepted` list; empty-normalised candidates are skipped
(`continue`, line 155). -/
def dedupGo (accepted : List Cand) : List Cand → List Cand
  | [] => accepted
  | c :: cs =>
    if normText c.text = [] then dedupGo accepted cs
    else
      match dedupScan c accepted with
      | some accepted2 => dedupGo accepted2 cs
      | none => dedupGo (accepted ++ [c]) cs

/-- `TextQualityFilter.deduplicate` (lines 143-177). -/
def TextQualityFilter.deduplicate (candidates : List Cand) : List Cand :=
  dedupGo [] candidates

/-- A bounding box `[x1, y1, x2, y2]` with rational coordinates
(layout_analysis.py, comment at line 33). -/
structure Box where
  x1 : ℚ
  y1 : ℚ
  x2 : ℚ
  y2 : ℚ
deriving DecidableEq

/-- `calculate_iou` (layout_analysis.py lines 30-56): intersection over
union of two boxes, with `0` returned for a degenerate zero-area union. -/
def calculate_iou (box1 box2 : Box) : ℚ :=
  let xi1 := max box1.x1 box2.x1
  let yi1 := max box1.y1 box2.y1
  let xi2 := min box1.x2 box2.x2
  let yi2 := min box1.y2 box2.y2
  let inter_area := max 0 (xi2 - xi1) * max 0 (yi2 - yi1)
  let box1_area := (box1.x2 - box1.x1) * (box1.y2 - box1.y1)
  let box2_area := (box2.x2 - box2.x1) * (box2.y2 - box2.y1)
  let union_area := box1_area + box2_area - inter_area
  if union_area = 0 then 0 else inter_area / union_area

/-- A detected layout region: type label, confidence score, bounding box
(the fields of a layoutparser block used by `analyze_image`). -/
structure Region where
  rtype : List Char
  score : ℚ
  box : Box
deriving DecidableEq

/-- Greedy IoU deduplication loop of `analyze_image` (lines 155-164): keep
a region unless its IoU with some already-kept region exceeds 0.9. -/
def iouDedup (unique_blocks : List Region) : List Region → List Region
  | [] => unique_blocks
  | b :: bs =>
    if unique_blocks.any (fun kept => (9 : ℚ) / 10 < calculate_iou b.box kept.box) then
      iouDedup unique_blocks bs
    else iouDedup (unique_blocks ++ [b]) bs

/-- Steps 1-2 of `analyze_image` (lines 146-164): keep regions whose type
is in `valid_types`, sort by descending score (Python's stable `list.sort`
with `reverse=True`, realised by a stable insertion sort), then greedily
deduplicate by IoU. -/
def layoutDedup (valid_types : List (List Char)) (layout : List Region) : List Region :=
  iouDedup []
    (List.insertionSort (fun a b => b.score ≤ a.score) (layout.filter (fun b => b.rtype ∈ valid_types)))

/-- `page_num` (process_pdf.py lines 36-38): the value of
`re.search(r'(\d+)(?=\.txt$)', name)` — the maximal digit run immediately
preceding a final `".txt"` — or `-1` when there is no match. -/
def page_num (name : List Char) : ℤ :=
  if "txt.".data.isPrefixOf name.reverse then
    let ds := (name.reverse.drop 4).takeWhile Char.isDigit
    if ds = [] then -1
    else (ds.reverse.foldl (fun n c => 10 * n + (c.toNat - '0'.toNat)) 0 : ℕ)
  else -1

/-- Chunking `[xs[i:i+gs] for i in range(0, len(xs), gs)]` for `gs ≥ 1`
(process_pdf.py line 52); the `gs = 0` case, on which Python's `range`
raises `ValueError`, is handled by the caller and never reaches here. -/
def chunkList (gs : Nat) : List α → List (List α)
  | [] => []
  | l@(_ :: _) =>
    if gs = 0 then [] else l.take gs :: chunkList gs (l.drop gs)
termination_by l => l.length
decreasing_by
  rename_i h
  simp_all
  omega

/-- `group_text_files` (process_pdf.py lines 40-55): numeric stable sort by
`page_num`, padding width from the highest (post-sort last) page number,
skip, chunk, and the defensive removal of empty chunks.  `group_size = 0`
makes Python's `range(0, n, 0)` raise `ValueError`, modelled as an error
value. -/
def group_text_files (names : List (List Char)) (group_size skip : Nat) :
    Except Unit (List (List (List Char)) × Nat) :=
  if group_size = 0 then .error ()
  else
    let all_txts := List.insertionSort (fun a b => page_num a ≤ page_num b) names
    if h : all_txts = [] then .ok ([], 0)
    else
      let pad_width := (Int.repr (page_num (all_txts.getLast h))).length
      let remaining := all_txts.drop skip
      let groups := (chunkList group_size remaining).filter (· ≠ [])
      .ok (groups, pad_width)

/-! ## Deduplication lemmas (claims C2 and C9) -/

/-- Containment both ways between normalised texts forces equality. -/
theorem infix_antisymm {a b : List Char} (h1 : a <:+: b) (h2 : b <:+: a) : a = b :=
  h1.sublist.eq_of_length (Nat.le_antisymm h1.sublist.length_le h2.sublist.length_le)

/-- The inner scan never invents candidates: its result is either the
accepted list unchanged or the accepted list with one entry replaced by
the (nonempty-normalised) candidate. -/
theorem dedupScan_mem {cand : Cand} :
    ∀ {acc acc2 : List Cand}, dedupScan cand acc = some acc2 →
      ∀ c ∈ acc2, c ∈ acc ∨ c = cand := by
  intro acc
  induction acc with
  | nil => intro acc2 h; simp [dedupScan] at h
  | cons a rest ih =>
    intro acc2 h c hc
    by_cases h1 : normText cand.text <:+: normText a.text
    · rw [dedupScan, if_pos h1, Option.some_inj] at h
      subst h
      rcases List.mem_cons.mp hc with h | h
      · exact Or.inl (by simp [h])
      · exact Or.inl (List.mem_cons_of_mem _ h)
    · by_cases h2 : normText a.text <:+: normText cand.text
      · rw [dedupScan, if_neg h1, if_pos h2, Option.some_inj] at h
        subst h
        rcases List.mem_cons.mp hc with h | h
        · exact Or.inr h
        · exact Or.inl (List.mem_cons_of_mem _ h)
      · rw [dedupScan, if_neg h1, if_neg h2] at h
        rcases Option.map_eq_some'.mp h with ⟨acc3, h3, hmap⟩
        subst hmap
        rcases List.mem_cons.mp hc with h | h
        · exact Or.inl (by simp [h])
        · rcases ih h3 c h with h | h
          · exact Or.inl (List.mem_cons_of_mem _ h)
          · exact Or.inr h

/-- Invariant of the outer loop: every block it returns has nonempty
normalised text, provided the incoming accepted list does. -/
theorem dedupGo_ink :
    ∀ (cs acc : List Cand), (∀ c ∈ acc, normText c.text ≠ []) →
      ∀ c ∈ dedupGo acc cs, normText c.text ≠ [] := by
  intro cs
  induction cs with
  | nil => intro acc hacc c hc; exact hacc c hc
  | cons x cs ih =>
    intro acc hacc c hc
    by_cases hx : normText x.text = []
    · rw [dedupGo, if_pos hx] at hc
      exact ih acc hacc c hc
    · rw [dedupGo, if_neg hx] at hc
      rcases hscan : dedupScan x acc with _ | acc2
      · rw [hscan] at hc
        refine ih _ ?_ c hc
        intro d hd
        rcases List.mem_append.mp hd with h | h
        · exact hacc d h
        · simp only [List.mem_singleton] at h
          exact h ▸ hx
      · rw [hscan] at hc
        refine ih _ ?_ c hc
        intro d hd
        rcases dedupScan_mem hscan d hd with h | h
        · exact hacc d h
        · exact h ▸ hx

/-- Skipped candidates leave the loop state untouched: deduplication of a
list equals deduplication of the list with the empty-normalised
candidates removed. -/
theorem dedupGo_filter_ink :
    ∀ (cs acc : List Cand),
      dedupGo acc cs = dedupGo acc (cs.filter (fun c => normText c.text ≠ [])) := by
  intro cs
  induction cs with
  | nil => intro acc; rfl
  | cons x cs ih =>
    intro acc
    by_cases hx : normText x.text = []
    · rw [dedupGo, if_pos hx, List.filter_cons_of_neg (by simp [hx]), ih]
    · rw [dedupGo, if_neg hx, List.filter_cons_of_pos (by simp [hx]), dedupGo, if_neg hx]
      rcases hscan : dedupScan x acc with _ | acc2 <;> simp [ih]

/-- Claim C9: `deduplicate` silently drops every candidate whose text
normalises to the empty string: the result is unchanged when such
candidates are removed from the input, and no returned block has
empty-normalised (i.e. empty or whitespace-only) text, so an
empty-normalised candidate is never kept as a new entry and never
replaces a kept block. -/
theorem c9_dedup_drops_blank_candidates (cs : List Cand) :
    TextQualityFilter.deduplicate cs
        = TextQualityFilter.deduplicate (cs.filter (fun c => normText c.text ≠ []))
      ∧ ∀ c ∈ TextQualityFilter.deduplicate cs, normText c.text ≠ [] := by
  constructor
  · exact dedupGo_filter_ink cs []
  · exact dedupGo_ink cs [] (by simp)

/-- Witness for C9 at a concrete input: the whitespace-only block is
dropped while the real block survives. -/
theorem c9_dedup_drops_blank_candidates_witness :
    (⟨"hello".data, 1⟩ : Cand) ∈ TextQualityFilter.deduplicate [⟨" ".data, 0⟩, ⟨"hello".data, 1⟩]
      ∧ normText (Cand.text ⟨"hello".data, 1⟩) ≠ [] :=
  ⟨by decide, (c9_dedup_drops_blank_candidates [⟨" ".data, 0⟩, ⟨"hello".data, 1⟩]).2
    ⟨"hello".data, 1⟩ (by decide)⟩

/-- Claim C2: when one candidate's normalised text is a proper substring
of the other's, `deduplicate` keeps exactly the longer, containing
candidate, and the outcome is the same for both input orders. -/
theorem c2_dedup_containment (a b : Cand)
    (hsub : normText a.text <:+: normText b.text)
    (hne : normText a.text ≠ normText b.text) :
    TextQualityFilter.deduplicate [a, b] = [b]
      ∧ TextQualityFilter.deduplicate [b, a] = [b] := by
  have hb : normText b.text ≠ [] := by
    intro hb0
    apply hne
    have hs := hsub.sublist
    rw [hb0] at hs
    rw [List.sublist_nil.mp hs, hb0]
  have hnsub : ¬ normText b.text <:+: normText a.text := fun h2 => hne (infix_antisymm hsub h2)
  by_cases ha : normText a.text = []
  · constructor
    · rw [TextQualityFilter.deduplicate, dedupGo, if_pos ha, dedupGo, if_neg hb]
      rfl
    · rw [TextQualityFilter.deduplicate, dedupGo, if_neg hb]
      show dedupGo [b] [a] = [b]
      rw [dedupGo, if_pos ha]
      rfl
  · constructor
    · rw [TextQualityFilter.deduplicate, dedupGo, if_neg ha]
      show dedupGo [a] [b] = [b]
      rw [dedupGo, if_neg hb]
      show (match dedupScan b [a] with
        | some acc2 => dedupGo acc2 []
        | none => dedupGo ([a] ++ [b]) []) = [b]
      rw [dedupScan, if_neg hnsub, if_pos hsub]
      rfl
    · rw [TextQualityFilter.deduplicate, dedupGo, if_neg hb]
      show dedupGo [b] [a] = [b]
      rw [dedupGo, if_neg ha]
      show (match dedupScan a [b] with
        | some acc2 => dedupGo acc2 []
        | none => dedupGo ([b] ++ [a]) []) = [b]
      rw [dedupScan, if_pos hsub]
      rfl

/-- Witness for C2 at the spec's concrete blocks: with `"hello world"`
and `"hello"`, only `"hello world"` survives, in either input order. -/
theorem c2_dedup_containment_witness :
    TextQualityFilter.deduplicate [⟨"hello".data, 0⟩, ⟨"hello world".data, 1⟩] = [⟨"hello world".data, 1⟩]
      ∧ TextQualityFilter.deduplicate [⟨"hello world".data, 1⟩, ⟨"hello".data, 0⟩] = [⟨"hello world".data, 1⟩] :=
  c2_dedup_containment ⟨"hello".data, 0⟩ ⟨"hello world".data, 1⟩ (by decide) (by decide)

/-- Claim C10: evaluating a block never mutates the quality baseline —
`is_valid` returns the state unchanged on every path, and only `add`
extends the recorded line-length samples (by the block's non-blank line
lengths). -/
theorem c10_is_valid_frame (f : TextQualityFilter) (text : List Char) :
    (f.is_valid text).2 = f
      ∧ f.add text = ⟨f.line_lengths ++ (inkLines text).map List.length⟩ := by
  constructor
  · rw [TextQualityFilter.is_valid]
    split
    · rfl
    · split
      · rfl
      · split
        · rfl
        · split
          · rfl
          · split <;> rfl
  · rfl

/-! ## Layout deduplication (claim C3) -/

/-- `calculate_iou` is symmetric in its two boxes. -/
theorem calculate_iou_comm (b1 b2 : Box) : calculate_iou b1 b2 = calculate_iou b2 b1 := by
  rcases b1 with ⟨a1, c1, e1, g1⟩
  rcases b2 with ⟨a2, c2, e2, g2⟩
  unfold calculate_iou
  simp only
  rw [max_comm a1 a2, max_comm c1 c2, min_comm e1 e2, min_comm g1 g2,
    add_comm ((e1 - a1) * (g1 - c1)) ((e2 - a2) * (g2 - c2))]

/-- Claim C3: for two regions of valid text type, the IoU deduplication
step of `analyze_image` keeps only the higher-scored region when their
boxes' IoU exceeds 0.9, and keeps both (higher-scored first) when it does
not, regardless of the input order. -/
theorem c3_iou_dedup (valid_types : List (List Char)) (b1 b2 : Region)
    (hv1 : b1.rtype ∈ valid_types) (hv2 : b2.rtype ∈ valid_types)
    (hs : b2.score < b1.score) :
    ((9 : ℚ) / 10 < calculate_iou b1.box b2.box →
      layoutDedup valid_types [b1, b2] = [b1] ∧ layoutDedup valid_types [b2, b1] = [b1])
    ∧ (calculate_iou b1.box b2.box ≤ 9 / 10 →
      layoutDedup valid_types [b1, b2] = [b1, b2]
        ∧ layoutDedup valid_types [b2, b1] = [b1, b2]) := by
  have hsort1 : List.insertionSort (fun a b => b.score ≤ a.score)
      (List.filter (fun b => decide (b.rtype ∈ valid_types)) [b1, b2]) = [b1, b2] := by
    rw [List.filter_cons_of_pos (by simpa using hv1), List.filter_cons_of_pos (by simpa using hv2)]
    show List.orderedInsert _ b1 (List.orderedInsert _ b2 []) = [b1, b2]
    rw [List.orderedInsert, List.orderedInsert, if_pos (le_of_lt hs)]
  have hsort2 : List.insertionSort (fun a b => b.score ≤ a.score)
      (List.filter (fun b => decide (b.rtype ∈ valid_types)) [b2, b1]) = [b1, b2] := by
    rw [List.filter_cons_of_pos (by simpa using hv2), List.filter_cons_of_pos (by simpa using hv1)]
    show List.orderedInsert _ b2 (List.orderedInsert _ b1 []) = [b1, b2]
    rw [List.orderedInsert, List.orderedInsert, if_neg (not_le.mpr hs)]
    rfl
  constructor
  · intro hiou
    have hany : List.any [b1] (fun kept => decide ((9 : ℚ) / 10 < calculate_iou b2.box kept.box)) = true := by
      simp [calculate_iou_comm b2.box b1.box, hiou]
    constructor
    · rw [layoutDedup, hsort1, iouDedup, if_neg (by simp), iouDedup]
      simp only [List.nil_append]
      rw [if_pos hany]
      rfl
    · rw [layoutDedup, hsort2, iouDedup, if_neg (by simp), iouDedup]
      simp only [List.nil_append]
      rw [if_pos hany]
      rfl
  · intro hiou
    have hany : ¬ List.any [b1] (fun kept => decide ((9 : ℚ) / 10 < calculate_iou b2.box kept.box)) = true := by
      simp [calculate_iou_comm b2.box b1.box, not_lt.mpr hiou]
    constructor
    · rw [layoutDedup, hsort1, iouDedup, if_neg (by simp), iouDedup]
      simp only [List.nil_append]
      rw [if_neg hany]
      rfl
    · rw [layoutDedup, hsort2, iouDedup, if_neg (by simp), iouDedup]
      simp only [List.nil_append]
      rw [if_neg hany]
      rfl

/-- Witness for C3: two identical unit boxes have IoU `1 > 0.9` (only the
higher-scored survives); two disjoint boxes have IoU `0 ≤ 0.9` (both
survive). -/
theorem c3_iou_dedup_witness :
    (layoutDedup ["Text".data] [⟨"Text".data, 9/10, ⟨0, 0, 1, 1⟩⟩, ⟨"Text".data, 1/2, ⟨0, 0, 1, 1⟩⟩]
        = [⟨"Text".data, 9/10, ⟨0, 0, 1, 1⟩⟩])
      ∧ (layoutDedup ["Text".data] [⟨"Text".data, 9/10, ⟨0, 0, 1, 1⟩⟩, ⟨"Text".data, 1/2, ⟨5, 5, 6, 6⟩⟩]
        = [⟨"Text".data, 9/10, ⟨0, 0, 1, 1⟩⟩, ⟨"Text".data, 1/2, ⟨5, 5, 6, 6⟩⟩]) := by
  constructor
  · exact ((c3_iou_dedup ["Text".data] ⟨"Text".data, 9/10, ⟨0, 0, 1, 1⟩⟩ ⟨"Text".data, 1/2, ⟨0, 0, 1, 1⟩⟩
      (by simp) (by simp) (by norm_num)).1 (by norm_num [calculate_iou])).1
  · exact ((c3_iou_dedup ["Text".data] ⟨"Text".data, 9/10, ⟨0, 0, 1, 1⟩⟩ ⟨"Text".data, 1/2, ⟨5, 5, 6, 6⟩⟩
      (by simp) (by simp) (by norm_num)).2 (by norm_num [calculate_iou])).1

/-! ## Quality baseline statistics (claims C1 and C4) -/

/-- The variance returned by `get_stats` is nonnegative. -/
theorem get_stats_var_nonneg (f : TextQualityFilter) : 0 ≤ f.get_stats.2 := by
  rw [TextQualityFilter.get_stats]
  split
  · simp
  · refine div_nonneg (List.sum_nonneg ?_) (by positivity)
    intro x hx
    rcases List.mem_map.mp hx with ⟨y, _, rfl⟩
    positivity

/-- The squared form of the outlier test agrees with the source comparison
`block_avg_len > mean + 2 * std` where `std = variance ** 0.5`: for a
nonnegative variance `v`,
`mean + 2·√v < avg ↔ isOutlierAvg avg mean v`. -/
theorem outlier_iff_sq (avg mean v : ℚ) (hv : 0 ≤ v) :
    ((mean : ℝ) + 2 * Real.sqrt (v : ℝ) < (avg : ℝ)) ↔ isOutlierAvg avg mean v = true := by
  rw [isOutlierAvg]
  simp only [Bool.and_eq_true, decide_eq_true_eq]
  constructor
  · intro h
    have hs : (0 : ℝ) ≤ Real.sqrt (v : ℝ) := Real.sqrt_nonneg _
    have hma : (mean : ℝ) < (avg : ℝ) := by nlinarith
    constructor
    · exact_mod_cast hma
    · have h2 : 2 * Real.sqrt (v : ℝ) < (avg : ℝ) - (mean : ℝ) := by linarith
      have h3 : (2 * Real.sqrt (v : ℝ)) ^ 2 < ((avg : ℝ) - (mean : ℝ)) ^ 2 := by
        apply pow_lt_pow_left₀ h2 (by positivity)
        norm_num
      rw [mul_pow, Real.sq_sqrt (by exact_mod_cast hv)] at h3
      have : (4 : ℝ) * (v : ℝ) < ((avg : ℝ) - (mean : ℝ)) ^ 2 := by nlinarith
      exact_mod_cast (by push_cast; linarith : ((4 * v : ℚ) : ℝ) < (((avg - mean) ^ 2 : ℚ) : ℝ))
  · rintro ⟨h1, h2⟩
    have h1R : (mean : ℝ) < (avg : ℝ) := by exact_mod_cast h1
    have h2R : (4 : ℝ) * (v : ℝ) < ((avg : ℝ) - (mean : ℝ)) ^ 2 := by
      have hc : ((4 * v : ℚ) : ℝ) < (((avg - mean) ^ 2 : ℚ) : ℝ) := by exact_mod_cast h2
      push_cast at hc
      linarith
    have hpos : (0 : ℝ) < (avg : ℝ) - (mean : ℝ) := by linarith
    have hs : Real.sqrt ((4 : ℝ) * (v : ℝ)) < (avg : ℝ) - (mean : ℝ) := by
      rw [show ((avg : ℝ) - (mean : ℝ)) = Real.sqrt (((avg : ℝ) - (mean : ℝ)) ^ 2) from
        (Real.sqrt_sq hpos.le).symm]
      exact Real.sqrt_lt_sqrt (by positivity) h2R
    rw [show (4 : ℝ) * (v : ℝ) = (2 : ℝ) ^ 2 * (v : ℝ) by norm_num,
      Real.sqrt_mul (by positivity), Real.sqrt_sq (by norm_num)] at hs
    linarith

/-- Every character of the text lands in one of its `split('\n')` parts
(and no part contains a newline). -/
theorem mem_splitNL {c : Char} :
    ∀ {t : List Char}, c ∈ t → c ≠ '\n' → ∃ l ∈ splitNL t, c ∈ l := by
  intro t
  induction t with
  | nil => intro h; simp at h
  | cons x xs ih =>
    intro hmem hc
    rcases List.mem_cons.mp hmem with rfl | hmem2
    · rw [splitNL, if_neg (by simpa using hc)]
      rcases hx : splitNL xs with _ | ⟨g, gs⟩
      · exact ⟨[c], by simp, by simp⟩
      · exact ⟨c :: g, by simp, by simp⟩
    · by_cases hx : x = '\n'
      · rw [splitNL, if_pos hx]
        rcases ih hmem2 hc with ⟨l, hl, hcl⟩
        exact ⟨l, List.mem_cons_of_mem _ hl, hcl⟩
      · rw [splitNL, if_neg hx]
        rcases ih hmem2 hc with ⟨l, hl, hcl⟩
        rcases hsp : splitNL xs with _ | ⟨g, gs⟩
        · rw [hsp] at hl; simp at hl
        · rw [hsp] at hl
          rcases List.mem_cons.mp hl with rfl | hl2
          · exact ⟨x :: l, by simp, List.mem_cons_of_mem _ hcl⟩
          · exact ⟨l, List.mem_cons_of_mem _ hl2, hcl⟩

/-- A text whose `strip()` is nonempty has at least one non-blank line. -/
theorem inkLines_ne_nil_of_strip {t : List Char} (h : stripWS t ≠ []) : inkLines t ≠ [] := by
  have hex : ∃ c ∈ t, ¬ isSpaceChar c := by
    by_contra hall
    push_neg at hall
    apply h
    have hdrop : t.dropWhile isSpaceChar = [] := List.dropWhile_eq_nil_iff.mpr (by simpa using hall)
    rw [stripWS, hdrop]
    rfl
  rcases hex with ⟨c, hct, hcs⟩
  have hcnl : c ≠ '\n' := by
    intro h
    apply hcs
    rw [h, isSpaceChar]
    simp
  rcases mem_splitNL hct hcnl with ⟨l, hl, hcl⟩
  intro hnil
  have : l ∈ inkLines t := by
    rw [inkLines]
    refine List.mem_filter.mpr ⟨hl, ?_⟩
    rw [hasInk]
    exact List.any_eq_true.mpr ⟨c, hcl, by simpa using hcs⟩
  rw [hnil] at this
  simp at this

/-- Claim C1 (amended): the outlier gate of `is_valid` is keyed to the
number of recorded line-length samples, not the number of recorded
blocks.  For every filter state and every block that passes the emptiness
and alphanumeric-density checks: once more than 5 samples are recorded, a
block whose average non-blank-line length exceeds `mean + 2·std` of the
baseline is rejected with the `"Line length outlier"` reason; with at most
5 samples recorded, the block is accepted regardless of its line length.
(`add` records one sample per non-blank line, so "6 recorded blocks"
coincides with this only when every recorded block has exactly one
non-blank line; see `c1_counterexample`.) -/
theorem c1_outlier_gate (f : TextQualityFilter) (t : List Char)
    (hne : stripWS t ≠ []) (hdens : densityLow t = false) :
    (5 < f.line_lengths.length →
      (f.get_stats.1 : ℝ) + 2 * Real.sqrt (f.get_stats.2 : ℝ) < (blockAvg t : ℝ) →
      (f.is_valid t).1 = (false, Reason.lineLengthOutlier))
    ∧ (f.line_lengths.length ≤ 5 → (f.is_valid t).1 = (true, Reason.ok)) := by
  have hclean : cleanChars t ≠ [] := by
    intro h0
    apply hne
    have hall : ∀ c ∈ t, isSpaceChar c := by
      intro c hc
      by_contra hcs
      have : c ∈ cleanChars t := List.mem_filter.mpr ⟨hc, by simpa using hcs⟩
      rw [h0] at this
      simp at this
    rw [stripWS, List.dropWhile_eq_nil_iff.mpr (by simpa using hall)]
    rfl
  have hink : inkLines t ≠ [] := inkLines_ne_nil_of_strip hne
  constructor
  · intro h5 hout
    have houtB : isOutlierAvg (blockAvg t) f.get_stats.1 f.get_stats.2 = true :=
      (outlier_iff_sq _ _ _ (get_stats_var_nonneg f)).mp hout
    rw [TextQualityFilter.is_valid, if_neg hne, if_neg hclean,
      if_neg (by simp [hdens]), if_neg hink, if_pos ⟨h5, houtB⟩]
  · intro h5
    rw [TextQualityFilter.is_valid, if_neg hne, if_neg hclean,
      if_neg (by simp [hdens]), if_neg hink,
      if_neg (by intro hand; exact absurd hand.1 (not_lt.mpr h5))]

/-- Witness for C1 (amended): with six recorded samples of length 5 the
ten-character block is rejected as an outlier; with only three such
samples the same block is accepted. -/
theorem c1_outlier_gate_witness :
    ((⟨[5, 5, 5, 5, 5, 5]⟩ : TextQualityFilter).is_valid "aaaaaaaaaa".data).1
        = (false, Reason.lineLengthOutlier)
      ∧ ((⟨[5, 5, 5]⟩ : TextQualityFilter).is_valid "aaaaaaaaaa".data).1 = (true, Reason.ok) := by
  have hne : stripWS "aaaaaaaaaa".data ≠ [] := by decide
  have hdens : densityLow "aaaaaaaaaa".data = false := by
    rw [densityLow]
    rw [show cleanChars "aaaaaaaaaa".data = "aaaaaaaaaa".data from by decide]
    rw [show ("aaaaaaaaaa".data.filter Char.isAlphanum) = "aaaaaaaaaa".data from by decide]
    norm_num
  have hstats : (⟨[5, 5, 5, 5, 5, 5]⟩ : TextQualityFilter).get_stats = (5, 0) := by
    rw [TextQualityFilter.get_stats, if_neg (by decide)]
    norm_num
  have havg : blockAvg "aaaaaaaaaa".data = 10 := by
    rw [blockAvg, show inkLines "aaaaaaaaaa".data = ["aaaaaaaaaa".data] from by decide]
    norm_num
  constructor
  · refine (c1_outlier_gate ⟨[5, 5, 5, 5, 5, 5]⟩ "aaaaaaaaaa".data hne hdens).1 (by norm_num) ?_
    rw [hstats, havg]
    norm_num [Real.sqrt_zero]
  · exact (c1_outlier_gate ⟨[5, 5, 5]⟩ "aaaaaaaaaa".data hne hdens).2 (by norm_num)

/-- Counterexample for C1 as stated: after recording only two blocks
(each with three non-blank lines of length 5), the baseline already holds
six samples, and a ten-character block that passes the emptiness and
density checks is rejected as a line-length outlier — the claim's "before
6 blocks have been recorded, the same block is accepted regardless" fails. -/
theorem c1_counterexample :
    ((TextQualityFilter.add (TextQualityFilter.add ⟨[]⟩ "aaaaa\naaaaa\naaaaa".data)
          "aaaaa\naaaaa\naaaaa".data).is_valid "aaaaaaaaaa".data).1
        = (false, Reason.lineLengthOutlier)
      ∧ (TextQualityFilter.add (TextQualityFilter.add ⟨[]⟩ "aaaaa\naaaaa\naaaaa".data)
          "aaaaa\naaaaa\naaaaa".data).line_lengths.length = 6 := by
  have hst : TextQualityFilter.add (TextQualityFilter.add ⟨[]⟩ "aaaaa\naaaaa\naaaaa".data)
      "aaaaa\naaaaa\naaaaa".data = ⟨[5, 5, 5, 5, 5, 5]⟩ := by decide
  rw [hst]
  refine ⟨?_, by decide⟩
  have hne : stripWS "aaaaaaaaaa".data ≠ [] := by decide
  have hclean : cleanChars "aaaaaaaaaa".data ≠ [] := by decide
  have hdens : densityLow "aaaaaaaaaa".data = false := by
    rw [densityLow]
    rw [show cleanChars "aaaaaaaaaa".data = "aaaaaaaaaa".data from by decide]
    rw [show ("aaaaaaaaaa".data.filter Char.isAlphanum) = "aaaaaaaaaa".data from by decide]
    norm_num
  have hink : inkLines "aaaaaaaaaa".data ≠ [] := by decide
  have hstats : (⟨[5, 5, 5, 5, 5, 5]⟩ : TextQualityFilter).get_stats = (5, 0) := by
    rw [TextQualityFilter.get_stats, if_neg (by decide)]
    norm_num
  have houtB : isOutlierAvg (blockAvg "aaaaaaaaaa".data) (5 : ℚ) 0 = true := by
    rw [show blockAvg "aaaaaaaaaa".data = 10 from by
      rw [blockAvg, show inkLines "aaaaaaaaaa".data = ["aaaaaaaaaa".data] from by decide]
      norm_num]
    rw [isOutlierAvg]
    norm_num
  rw [TextQualityFilter.is_valid, if_neg hne, if_neg hclean, if_neg (by simp [hdens]),
    if_neg hink, if_pos ⟨by decide, hstats ▸ houtB⟩]

set_option maxRecDepth 4000 in
/-- Claim C4 (code bug): `TextQualityFilter` has no configuration flag at
all — `__init__` takes no parameters — so the line-length outlier check
cannot be disabled.  This theorem replays the repository's own test
`test_disable_line_length_filtering` (tests/test_split_pdf.py lines
46-59) against the filter as implemented: after training on ten
`"Short line."` blocks, the long line is rejected as a line-length
outlier on every path the class offers, whereas the test (constructing
`TextQualityFilter(disable_line_length_filter=True)`) expects acceptance. -/
theorem c4_no_disable_flag :
    ((List.foldl TextQualityFilter.add ⟨[]⟩ (List.replicate 10 "Short line.".data)).is_valid
        "This is a very very very very very very very very very very very very very very very very very long line.".data).1
      = (false, Reason.lineLengthOutlier) := by
  have hst : List.foldl TextQualityFilter.add ⟨[]⟩ (List.replicate 10 "Short line.".data)
      = ⟨[11, 11, 11, 11, 11, 11, 11, 11, 11, 11]⟩ := by decide
  rw [hst]
  set t := "This is a very very very very very very very very very very very very very very very very very long line.".data with ht
  have hne : stripWS t ≠ [] := by decide
  have hclean : cleanChars t ≠ [] := by decide
  have hdens : densityLow t = false := by
    rw [densityLow]
    rw [show ((cleanChars t).filter Char.isAlphanum).length = 83 from by decide,
      show (cleanChars t).length = 84 from by decide]
    norm_num
  have hink : inkLines t ≠ [] := by decide
  have hstats : (⟨[11, 11, 11, 11, 11, 11, 11, 11, 11, 11]⟩ : TextQualityFilter).get_stats
      = (11, 0) := by
    rw [TextQualityFilter.get_stats, if_neg (by decide)]
    norm_num
  have havg : blockAvg t = 105 := by
    rw [blockAvg, show inkLines t = [t] from by decide]
    simp only [List.map_cons, List.map_nil, List.sum_cons, List.sum_nil, List.length_cons,
      List.length_nil, show t.length = 105 from by decide]
    norm_num
  have houtB : isOutlierAvg (blockAvg t) (11 : ℚ) 0 = true := by
    rw [havg, isOutlierAvg]
    norm_num
  rw [TextQualityFilter.is_valid, if_neg hne, if_neg hclean, if_neg (by simp [hdens]),
    if_neg hink, if_pos ⟨by decide, hstats ▸ houtB⟩]

/-! ## Page grouping (claim C8) -/

/-- The numeric sort key order is total. -/
instance : IsTotal (List Char) (fun a b => page_num a ≤ page_num b) :=
  ⟨fun a b => Int.le_total (page_num a) (page_num b)⟩

/-- The numeric sort key order is transitive. -/
instance : IsTrans (List Char) (fun a b => page_num a ≤ page_num b) :=
  ⟨fun _ _ _ h1 h2 => le_trans h1 h2⟩

/-- In a list sorted by page number, every element's key is bounded by the
key of the last element. -/
theorem sorted_key_le_getLast :
    ∀ {l : List (List Char)}, List.Sorted (fun a b => page_num a ≤ page_num b) l →
      ∀ (h : l ≠ []) (x : List Char), x ∈ l → page_num x ≤ page_num (l.getLast h) := by
  intro l
  induction l with
  | nil => intro _ h; exact absurd rfl h
  | cons a rest ih =>
    intro hs h x hx
    rcases List.sorted_cons.mp hs with ⟨ha, hrest⟩
    rcases rest with _ | ⟨b, rest2⟩
    · simp only [List.mem_singleton] at hx
      subst hx
      exact le_refl _
    · rw [List.getLast_cons (by simp)]
      rcases List.mem_cons.mp hx with rfl | hx2
      · exact le_trans (ha b (by simp)) (ih hrest (by simp) b (by simp))
      · exact ih hrest (by simp) x hx2

/-- Concatenating the chunks of a list gives the list back (for a
positive chunk size). -/
theorem chunkList_join (gs : Nat) (hgs : gs ≠ 0) :
    ∀ l : List α, (chunkList gs l).flatten = l := by
  intro l
  induction l using chunkList.induct gs with
  | case1 => simp [chunkList]
  | case2 x xs hgs2 => exact absurd hgs2 hgs
  | case3 x xs hgs2 ih =>
    rw [chunkList]
    simp only [if_neg hgs]
    rw [List.flatten_cons, ih, List.take_append_drop]

/-- No chunk of a positive-size chunking is empty. -/
theorem chunkList_ne_nil (gs : Nat) (hgs : gs ≠ 0) :
    ∀ (l : List α) (g : List α), g ∈ chunkList gs l → g ≠ [] := by
  intro l
  induction l using chunkList.induct gs with
  | case1 => intro g hg; simp [chunkList] at hg
  | case2 x xs hgs2 => exact absurd hgs2 hgs
  | case3 x xs hgs2 ih =>
    intro g hg
    rw [chunkList, if_neg hgs] at hg
    rcases List.mem_cons.mp hg with rfl | hg2
    · simp [List.take_eq_nil_iff, hgs]
    · exact ih g hg2

/-- Every chunk except possibly the last has length exactly the chunk
size. -/
theorem chunkList_dropLast_length (gs : Nat) (hgs : gs ≠ 0) :
    ∀ (l : List α) (g : List α), g ∈ (chunkList gs l).dropLast → g.length = gs := by
  intro l
  induction l using chunkList.induct gs with
  | case1 => intro g hg; simp [chunkList] at hg
  | case2 x xs hgs2 => exact absurd hgs2 hgs
  | case3 x xs hgs2 ih =>
    intro g hg
    rw [chunkList, if_neg hgs] at hg
    rcases hrest : chunkList gs ((x :: xs).drop gs) with _ | ⟨c, cs⟩
    · rw [hrest] at hg
      simp at hg
    · rw [hrest, List.dropLast_cons_of_ne_nil (by simp)] at hg
      rcases List.mem_cons.mp hg with rfl | hg2
      · have hd : (x :: xs).drop gs ≠ [] := by
          intro h0
          rw [h0] at hrest
          simp [chunkList] at hrest
        have hlen : gs ≤ (x :: xs).length := by
          by_contra hlt
          push_neg at hlt
          exact hd (List.drop_eq_nil_of_le (le_of_lt hlt))
        simp only [List.length_take]
        exact Nat.min_eq_left hlen
      · rw [← hrest] at hg2
        exact ih g hg2

/-- The final chunk is never longer than the chunk size. -/
theorem chunkList_getLast_le (gs : Nat) (hgs : gs ≠ 0) :
    ∀ (l : List α) (g : List α), (chunkList gs l).getLast? = some g → g.length ≤ gs := by
  intro l
  induction l using chunkList.induct gs with
  | case1 => intro g hg; simp [chunkList] at hg
  | case2 x xs hgs2 => exact absurd hgs2 hgs
  | case3 x xs hgs2 ih =>
    intro g hg
    rw [chunkList, if_neg hgs] at hg
    rcases hrest : chunkList gs ((x :: xs).drop gs) with _ | ⟨c, cs⟩
    · rw [hrest] at hg
      simp only [List.getLast?_singleton, Option.some_inj] at hg
      subst hg
      exact List.length_take_le gs (x :: xs)
    · rw [hrest, List.getLast?_cons_cons, ← hrest] at hg
      exact ih g hg

/-- Claim C8 (amended to positive group sizes): for every directory
listing, `group_size ≥ 1` and skip count, `group_text_files` stably sorts
the names by parsed page number (unparsable names keyed `-1` and sorting
first), drops the first `skip` entries, and partitions the rest into
consecutive groups of exactly `group_size` elements with only the final
group possibly shorter and no group empty; the padding width is the
length of the decimal representation of the highest page number of the
full, unskipped listing, and an empty directory yields `([], 0)`.
With `group_size = 0` the Python code raises `ValueError` instead (see
`c8_counterexample`). -/
theorem c8_group_text_files (names : List (List Char)) (gs skip : Nat) (hgs : 0 < gs) :
    ∃ groups pad,
      group_text_files names gs skip = .ok (groups, pad)
      ∧ groups.flatten
          = (List.insertionSort (fun a b => page_num a ≤ page_num b) names).drop skip
      ∧ (List.insertionSort (fun a b => page_num a ≤ page_num b) names).Perm names
      ∧ List.Sorted (fun a b => page_num a ≤ page_num b)
          (List.insertionSort (fun a b => page_num a ≤ page_num b) names)
      ∧ (∀ g ∈ groups, g ≠ [])
      ∧ (∀ g ∈ groups.dropLast, g.length = gs)
      ∧ (∀ g, groups.getLast? = some g → g.length ≤ gs)
      ∧ (names = [] → groups = [] ∧ pad = 0)
      ∧ (names ≠ [] → ∃ M : ℤ, M ∈ names.map page_num
          ∧ (∀ k ∈ names.map page_num, k ≤ M) ∧ pad = (Int.repr M).length) := by
  have hgs0 : gs ≠ 0 := Nat.pos_iff_ne_zero.mp hgs
  have hperm := List.perm_insertionSort (fun a b => page_num a ≤ page_num b) names
  have hsort := List.sorted_insertionSort (fun a b => page_num a ≤ page_num b) names
  by_cases h : List.insertionSort (fun a b => page_num a ≤ page_num b) names = []
  · refine ⟨[], 0, ?_, ?_, hperm, hsort, by simp, by simp, by simp, by simp, ?_⟩
    · rw [group_text_files, if_neg hgs0, dif_pos h]
    · rw [h]
      simp
    · intro hne
      exact absurd (List.Perm.eq_nil (h ▸ hperm.symm)) hne
  · have hfil : (chunkList gs ((List.insertionSort (fun a b => page_num a ≤ page_num b) names).drop skip)).filter
        (· ≠ []) = chunkList gs ((List.insertionSort (fun a b => page_num a ≤ page_num b) names).drop skip) := by
      refine List.filter_eq_self.mpr ?_
      intro g hg
      simpa using chunkList_ne_nil gs hgs0 _ g hg
    have hE : group_text_files names gs skip
        = Except.ok ((chunkList gs ((List.insertionSort (fun a b => page_num a ≤ page_num b)
              names).drop skip)).filter (· ≠ []),
          (Int.repr (page_num ((List.insertionSort (fun a b => page_num a ≤ page_num b)
              names).getLast h))).length) := by
      rw [group_text_files, if_neg hgs0, dif_neg h]
    refine ⟨_, _, hE, ?_, hperm, hsort, ?_, ?_, ?_, ?_, ?_⟩
    · rw [hfil]
      exact chunkList_join gs hgs0 _
    · rw [hfil]
      exact fun g hg => chunkList_ne_nil gs hgs0 _ g hg
    · rw [hfil]
      exact fun g hg => chunkList_dropLast_length gs hgs0 _ g hg
    · rw [hfil]
      exact fun g hg => chunkList_getLast_le gs hgs0 _ g hg
    · intro h0
      refine absurd ?_ h
      rw [h0]
      rfl
    · intro _
      refine ⟨page_num ((List.insertionSort (fun a b => page_num a ≤ page_num b) names).getLast h),
        ?_, ?_, rfl⟩
      · exact List.mem_map_of_mem page_num (hperm.subset (List.getLast_mem h))
      · intro k hk
        rcases List.mem_map.mp hk with ⟨x, hx, rfl⟩
        exact sorted_key_le_getLast hsort h x (hperm.symm.subset hx)

/-- Witness for C8: the spec's concrete scenario — ten files numbered
1 to 10, `group_size = 3` — yields the groups `[1,2,3] [4,5,6] [7,8,9] [10]`
(sizes `[3, 3, 3, 1]`) with padding width 2, and with `skip = 5` the first
group starts at `page_6.txt`; the general theorem is applied at that
input to discharge its hypothesis. -/
theorem c8_group_text_files_witness :
    (∃ groups pad,
        group_text_files (List.map String.data ["page_1.txt", "page_2.txt", "page_3.txt",
            "page_4.txt", "page_5.txt", "page_6.txt", "page_7.txt", "page_8.txt", "page_9.txt",
            "page_10.txt"]) 3 0 = .ok (groups, pad))
      ∧ group_text_files (List.map String.data ["page_1.txt", "page_2.txt", "page_3.txt",
            "page_4.txt", "page_5.txt", "page_6.txt", "page_7.txt", "page_8.txt", "page_9.txt",
            "page_10.txt"]) 3 0
          = .ok ([List.map String.data ["page_1.txt", "page_2.txt", "page_3.txt"],
              List.map String.data ["page_4.txt", "page_5.txt", "page_6.txt"],
              List.map String.data ["page_7.txt", "page_8.txt", "page_9.txt"],
              List.map String.data ["page_10.txt"]], 2)
      ∧ group_text_files (List.map String.data ["page_1.txt", "page_2.txt", "page_3.txt",
            "page_4.txt", "page_5.txt", "page_6.txt", "page_7.txt", "page_8.txt", "page_9.txt",
            "page_10.txt"]) 3 5
          = .ok ([List.map String.data ["page_6.txt", "page_7.txt", "page_8.txt"],
              List.map String.data ["page_9.txt", "page_10.txt"]], 2) := by
  obtain ⟨G, P, hE, _⟩ := c8_group_text_files (List.map String.data ["page_1.txt", "page_2.txt",
    "page_3.txt", "page_4.txt", "page_5.txt", "page_6.txt", "page_7.txt", "page_8.txt",
    "page_9.txt", "page_10.txt"]) 3 0 (by decide)
  refine ⟨⟨G, P, hE⟩, ?_, ?_⟩
  · simp [group_text_files, chunkList, page_num]
    rfl
  · simp [group_text_files, chunkList, page_num]
    rfl

/-- Counterexample for C8 as universally stated: with `group_size = 0`
and a nonempty directory, `group_text_files` raises `ValueError`
(Python's `range(0, n, 0)`) instead of producing any partition, so the
claim's universal quantification over "group size" fails at 0. -/
theorem c8_counterexample :
    group_text_files ["page_1.txt".data] 0 0 = .error () := by
  rfl

/-! ## Structure of `clean_pdf_text` output (claims C5, C6, C7)

The idempotence and pattern claims rest on a family of scanner invariants
over the cleaned text: every newline run has length exactly two
(`nlPairs`), no two spaces are adjacent (`spOk`), no whole-word occurrence
of the three OCR-fix patterns remains (`occFree`), and the ends carry no
whitespace.  Each pass of `clean_pdf_text` establishes or preserves these,
and each pass is the identity on strings satisfying its invariant. -/

/-- Automaton checking that every maximal newline run has length exactly
two; `k` counts the newlines already seen in the current run. -/
def nlPairs : Nat → List Char → Bool
  | k, [] => decide (k ≠ 1)
  | k, c :: cs =>
    if c = '\n' then decide (k < 2) && nlPairs (k + 1) cs
    else decide (k ≠ 1) && nlPairs 0 cs

/-- Automaton checking that no newline is isolated (every newline has a
newline neighbour); `p` records whether the previous character was a
newline. -/
def noLoneNL : Bool → List Char → Bool
  | _, [] => true
  | p, c :: cs =>
    if c = '\n' then (p || decide (cs.head? = some '\n')) && noLoneNL true cs
    else noLoneNL false cs

/-- Automaton checking that no two spaces are adjacent; `p` records
whether the previous character was a space. -/
def spOk : Bool → List Char → Bool
  | _, [] => true
  | p, c :: cs =>
    if c = ' ' then !p && spOk true cs
    else spOk false cs

/-- Automaton checking that `-` is never immediately followed by a newline
(no `"-\n"` infix); `p` records whether the previous character was `-`. -/
def dashFree : Bool → List Char → Bool
  | _, [] => true
  | p, c :: cs => !(p && decide (c = '\n')) && dashFree (decide (c = '-')) cs

/-- Automaton checking that the word `w0 :: wr` never occurs with a word
boundary on both sides; `p` records whether the previous character was a
word character (mirroring the scan of `replaceWord`). -/
def occFree (w0 : Char) (wr : List Char) : Bool → List Char → Bool
  | _, [] => true
  | p, c :: cs =>
    !decide (c = w0 ∧ p = false ∧ wr.isPrefixOf cs ∧ headNotWord (cs.drop wr.length) = true)
      && occFree w0 wr (isWordChar c) cs

/-- The first character, if any, is not whitespace. -/
def startsNonWS (l : List Char) : Bool :=
  match l.head? with
  | none => true
  | some c => !isSpaceChar c

/-- The last character, if any, is not whitespace. -/
def endsNonWS (l : List Char) : Bool :=
  match l.getLast? with
  | none => true
  | some c => !isSpaceChar c

/-- A word character is not a newline. -/
theorem wordChar_ne_nl {c : Char} (h : isWordChar c = true) : c ≠ '\n' := by
  intro h0
  subst h0
  simp [isWordChar] at h

/-- A word character is not a space. -/
theorem wordChar_ne_sp {c : Char} (h : isWordChar c = true) : c ≠ ' ' := by
  intro h0
  subst h0
  simp [isWordChar] at h

/-- A whitespace character is not a word character. -/
theorem space_not_word {c : Char} (h : isSpaceChar c = true) : isWordChar c = false := by
  rw [isSpaceChar] at h
  simp only [Bool.or_eq_true, decide_eq_true_eq] at h
  rcases h with ((((h | h) | h) | h) | h) | h <;> subst h <;> decide

/-- In the `nlPairs` automaton, state 1 forces the next character to be a
newline. -/
theorem nlPairs_one_head {cs : List Char} (h : nlPairs 1 cs = true) : cs.head? = some '\n' := by
  rcases cs with _ | ⟨c, cs⟩
  · simp [nlPairs] at h
  · by_cases hc : c = '\n'
    · simp [hc]
    · rw [nlPairs, if_neg hc] at h
      simp at h


/-- Unfolding: `hyphenJoin` on the empty list. -/
theorem hyphenJoin_nil (st : HJState) : hyphenJoin st [] = [] := by
  rw [hyphenJoin.eq_def]

/-- Unfolding: `hyphenJoin` on a word character. -/
theorem hyphenJoin_cons_word {c : Char} (h : isWordChar c = true) (st : HJState) (cs : List Char) :
    hyphenJoin st (c :: cs) = c :: hyphenJoin st.step cs := by
  rw [hyphenJoin.eq_def]
  simp [h]

/-- Unfolding: `hyphenJoin` at a firing `-` + newline + word-character
pattern. -/
theorem hyphenJoin_dash_word {d : Char} (h : isWordChar d = true) (cs2 : List Char) :
    hyphenJoin .avail ('-' :: '\n' :: d :: cs2) = d :: hyphenJoin .consumed cs2 := by
  rw [hyphenJoin.eq_def]
  simp [h, (by decide : isWordChar '-' = false)]

/-- Unfolding: `hyphenJoin` at `-` + newline + non-word character. -/
theorem hyphenJoin_dash_nonword {d : Char} (h : isWordChar d = false) (cs2 : List Char) :
    hyphenJoin .avail ('-' :: '\n' :: d :: cs2) = '-' :: hyphenJoin .non ('\n' :: d :: cs2) := by
  rw [hyphenJoin.eq_def]
  simp [h, (by decide : isWordChar '-' = false)]

/-- Unfolding: `hyphenJoin` at an available `-` whose tail does not start
with newline + one further character. -/
theorem hyphenJoin_dash_nomatch {l : List Char} (hnot : ∀ d cs2, l ≠ '\n' :: d :: cs2) :
    hyphenJoin .avail ('-' :: l) = '-' :: hyphenJoin .non l := by
  rw [hyphenJoin.eq_def]
  simp only [(by decide : isWordChar '-' = false), Bool.false_eq_true, if_false, and_self,
    if_true, true_and, reduceIte]

/-- Unfolding: `hyphenJoin` on a non-word character that cannot fire
(either it is not `-` or the state is not `avail`). -/
theorem hyphenJoin_cons_other {st : HJState} {c : Char} (hw : isWordChar c = false)
    (hno : ¬(c = '-' ∧ st = .avail)) (cs : List Char) :
    hyphenJoin st (c :: cs) = c :: hyphenJoin .non cs := by
  rw [hyphenJoin.eq_def]
  simp only [hw, Bool.false_eq_true, if_false]
  rw [if_neg hno]

/-- The hyphen-join pass is the identity on texts whose newline runs all
have length two: no newline is then preceded by `-` and followed by a
word character. -/
theorem hyphenJoin_id : ∀ (st : HJState) (l : List Char),
    (∀ k, nlPairs k l = true → hyphenJoin st l = l) := by
  intro st l
  induction st, l using hyphenJoin.induct with
  | case1 st => intro k _; exact hyphenJoin_nil st
  | case2 st c cs hw ih =>
    intro k hk
    rw [nlPairs, if_neg (wordChar_ne_nl hw)] at hk
    simp only [Bool.and_eq_true, decide_eq_true_eq] at hk
    rw [hyphenJoin_cons_word hw, ih 0 hk.2]
  | case3 st c hcw hca d cs2 hdw ih =>
    intro k hk
    rw [nlPairs, if_neg (by rw [hca.1]; decide)] at hk
    simp only [Bool.and_eq_true, decide_eq_true_eq] at hk
    rw [nlPairs, if_pos rfl] at hk
    have hk2 := hk.2
    simp only [Bool.and_eq_true, decide_eq_true_eq] at hk2
    rw [nlPairs, if_neg (wordChar_ne_nl hdw)] at hk2
    simp at hk2
  | case4 st c hcw hca d cs2 hdw ih =>
    intro k hk
    rw [nlPairs, if_neg (by rw [hca.1]; decide)] at hk
    simp only [Bool.and_eq_true, decide_eq_true_eq] at hk
    rw [hca.1, hca.2, hyphenJoin_dash_nonword (by simpa using hdw), ih 0 hk.2]
  | case5 st c hcw hca l hnot ih =>
    intro k hk
    rw [nlPairs, if_neg (by rw [hca.1]; decide)] at hk
    simp only [Bool.and_eq_true, decide_eq_true_eq] at hk
    rw [hca.1, hca.2, hyphenJoin_dash_nomatch (fun d cs2 h => hnot d cs2 h), ih 0 hk.2]
  | case6 st c cs hcw hno ih =>
    intro k hk
    by_cases hc : c = '\n'
    · subst hc
      rw [nlPairs, if_pos rfl] at hk
      simp only [Bool.and_eq_true, decide_eq_true_eq] at hk
      rw [hyphenJoin_cons_other (by simpa using hcw) hno, ih (k + 1) hk.2]
    · rw [nlPairs, if_neg hc] at hk
      simp only [Bool.and_eq_true, decide_eq_true_eq] at hk
      rw [hyphenJoin_cons_other (by simpa using hcw) hno, ih 0 hk.2]

/-- The soft-wrap pass is the identity on texts whose newline runs all
have length two (no lone newline exists to replace); the scan state
agrees with the run counter. -/
theorem nlToSpace_id : ∀ (l : List Char) (k : Nat),
    nlPairs k l = true → nlToSpace (decide (k ≠ 0)) l = l := by
  intro l
  induction l with
  | nil => intro k _; rfl
  | cons c cs ih =>
    intro k hk
    by_cases hc : c = '\n'
    · subst hc
      rw [nlPairs, if_pos rfl] at hk
      simp only [Bool.and_eq_true, decide_eq_true_eq] at hk
      rw [nlToSpace]
      rcases Nat.eq_zero_or_pos k with rfl | hkpos
      · have hhead : cs.head? = some '\n' := nlPairs_one_head hk.2
        rw [if_pos rfl]
        simp only [hhead]
        have h1 : nlToSpace true cs = cs := by simpa using ih 1 hk.2
        simp [h1]
      · rw [if_pos rfl]
        have hknz : decide (k ≠ 0) = true := by simpa using Nat.pos_iff_ne_zero.mp hkpos
        simp only [hknz]
        have h1 : nlToSpace true cs = cs := by simpa using ih (k + 1) hk.2
        simp [h1]
    · rw [nlPairs, if_neg hc] at hk
      simp only [Bool.and_eq_true, decide_eq_true_eq] at hk
      rw [nlToSpace, if_neg hc]
      have := ih 0 hk.2
      simp only [show decide ((0 : Nat) ≠ 0) = false from by simp] at this
      rw [this]

/-- The newline-collapsing pass is the identity on texts whose newline
runs already have length exactly two. -/
theorem collapseNL_id : ∀ (l : List Char) (k : Nat),
    nlPairs k l = true → collapseNL k l = l := by
  intro l
  induction l with
  | nil => intro k _; rfl
  | cons c cs ih =>
    intro k hk
    by_cases hc : c = '\n'
    · subst hc
      rw [nlPairs, if_pos rfl] at hk
      simp only [Bool.and_eq_true, decide_eq_true_eq] at hk
      rw [collapseNL, if_pos rfl, if_pos hk.1, ih (k + 1) hk.2]
      rfl
    · rw [nlPairs, if_neg hc] at hk
      simp only [Bool.and_eq_true, decide_eq_true_eq] at hk
      rw [collapseNL, if_neg hc, ih 0 hk.2]

/-- The space-collapsing pass is the identity on texts with no two
adjacent spaces. -/
theorem collapseSp_id : ∀ (l : List Char) (p : Bool),
    spOk p l = true → collapseSp p l = l := by
  intro l
  induction l with
  | nil => intro p _; rfl
  | cons c cs ih =>
    intro p hk
    by_cases hc : c = ' '
    · subst hc
      rw [spOk, if_pos rfl] at hk
      simp only [Bool.and_eq_true, Bool.not_eq_eq_eq_not, Bool.not_true] at hk
      rw [collapseSp, if_pos rfl, hk.1]
      simp only [Bool.false_eq_true, if_false, List.singleton_append]
      rw [ih true hk.2]
    · rw [spOk, if_neg hc] at hk
      rw [collapseSp, if_neg hc, ih false hk]

/-- The whole-word substitution is the identity on texts with no
whole-word occurrence of the pattern. -/
theorem replaceWord_id (w0 : Char) (wr repl : List Char) :
    ∀ (p : Bool) (l : List Char), occFree w0 wr p l = true → replaceWord w0 wr repl p l = l := by
  intro p l
  induction p, l using replaceWord.induct w0 wr repl with
  | case1 p => intro _; rw [replaceWord.eq_def]
  | case2 p c cs hfire ih =>
    intro hk
    rw [occFree] at hk
    simp only [Bool.and_eq_true, Bool.not_eq_eq_eq_not, Bool.not_true, decide_eq_false_iff_not] at hk
    exact absurd ⟨hfire.1, hfire.2.1, hfire.2.2.1, hfire.2.2.2⟩ hk.1
  | case3 p c cs hfire ih =>
    intro hk
    rw [occFree] at hk
    simp only [Bool.and_eq_true] at hk
    rw [replaceWord.eq_def]
    simp only [if_neg hfire]
    rw [ih hk.2]

/-- `rstrip` removes a whitespace suffix: the input is the output
followed by whitespace characters only. -/
theorem rstrip_decomp : ∀ l : List Char, ∃ s, l = rstrip l ++ s ∧ ∀ c ∈ s, isSpaceChar c = true := by
  intro l
  induction l with
  | nil => exact ⟨[], rfl, by simp⟩
  | cons c cs ih =>
    rcases ih with ⟨s, hs, hsp⟩
    rw [rstrip]
    by_cases h : rstrip cs = [] ∧ isSpaceChar c = true
    · rw [if_pos (by simpa using h)]
      refine ⟨c :: s, ?_, ?_⟩
      · simpa [h.1] using hs
      · intro d hd
        rcases List.mem_cons.mp hd with rfl | hd2
        · exact h.2
        · exact hsp d hd2
    · rw [if_neg (by simpa using h)]
      exact ⟨s, by simpa using hs, hsp⟩

/-- The result of `rstrip` never ends in whitespace. -/
theorem endsNonWS_rstrip : ∀ l : List Char, endsNonWS (rstrip l) = true := by
  intro l
  induction l with
  | nil => rfl
  | cons c cs ih =>
    rw [rstrip]
    by_cases h : rstrip cs = [] ∧ isSpaceChar c = true
    · rw [if_pos (by simpa using h)]
      rfl
    · rw [if_neg (by simpa using h)]
      rcases hr : rstrip cs with _ | ⟨r0, rs⟩
      · have hcs : isSpaceChar c = false := by
          rcases Bool.eq_false_or_eq_true (isSpaceChar c) with h0 | h0
          · exact absurd ⟨hr, h0⟩ h
          · exact h0
        rw [endsNonWS]
        simp [hcs]
      · rw [endsNonWS, List.getLast?_cons_cons]
        rw [hr, endsNonWS] at ih
        exact ih

/-- `rstrip` is the identity on lists that do not end in whitespace. -/
theorem rstrip_id : ∀ l : List Char, endsNonWS l = true → rstrip l = l := by
  intro l
  induction l with
  | nil => intro _; rfl
  | cons c cs ih =>
    intro h
    rcases cs with _ | ⟨d, ds⟩
    · rw [endsNonWS] at h
      simp only [List.getLast?_singleton] at h
      rw [rstrip]
      simp [rstrip, show isSpaceChar c = false from by simpa using h]
    · rw [endsNonWS, List.getLast?_cons_cons] at h
      have hr : rstrip (d :: ds) = d :: ds := ih (by rw [endsNonWS]; exact h)
      rw [rstrip, hr]
      simp

/-- `stripWS` is the identity on lists with no whitespace at either end. -/
theorem stripWS_id (l : List Char) (h1 : startsNonWS l = true) (h2 : endsNonWS l = true) :
    stripWS l = l := by
  rcases l with _ | ⟨c, cs⟩
  · rfl
  · rw [startsNonWS] at h1
    simp only [List.head?_cons] at h1
    rw [stripWS, List.dropWhile_cons, if_neg (by simpa using h1)]
    exact rstrip_id _ h2

/-- The output of `stripWS` never starts in whitespace. -/
theorem startsNonWS_stripWS (l : List Char) : startsNonWS (stripWS l) = true := by
  rw [stripWS]
  rcases hd : l.dropWhile isSpaceChar with _ | ⟨c, cs⟩
  · rfl
  · have hc : isSpaceChar c = false := by
      have hh := List.head?_dropWhile_not isSpaceChar l
      rw [hd] at hh
      simpa using hh
    rw [rstrip]
    simp only [hc, Bool.false_eq_true, and_false, if_false]
    rw [startsNonWS]
    simp [hc]

/-- The output of `stripWS` never ends in whitespace. -/
theorem endsNonWS_stripWS (l : List Char) : endsNonWS (stripWS l) = true :=
  endsNonWS_rstrip _

/-- `noLoneNL` does not depend on the incoming state when the list does
not start with a newline. -/
theorem noLoneNL_state_irrel {l : List Char} (h : l.head? ≠ some '\n') (a b : Bool) :
    noLoneNL a l = noLoneNL b l := by
  rcases l with _ | ⟨c, cs⟩
  · rfl
  · have hc : c ≠ '\n' := by simpa using h
    rw [noLoneNL, noLoneNL, if_neg hc, if_neg hc]

/-- The head of the soft-wrap output is a newline exactly when the head
of its input is a kept newline; in particular, with previous-newline
state the head newline is preserved. -/
theorem nlToSpace_head_nl {cs : List Char} (h : cs.head? = some '\n') :
    (nlToSpace true cs).head? = some '\n' := by
  rcases cs with _ | ⟨c, cs2⟩
  · simp at h
  · simp only [List.head?_cons, Option.some_inj] at h
    subst h
    rw [nlToSpace, if_pos rfl]
    simp

/-- The soft-wrap pass leaves no lone newline: every kept newline has a
newline neighbour. -/
theorem noLoneNL_nlToSpace : ∀ (l : List Char) (p : Bool), noLoneNL p (nlToSpace p l) = true := by
  intro l
  induction l with
  | nil => intro p; rfl
  | cons c cs ih =>
    intro p
    by_cases hc : c = '\n'
    · subst hc
      rw [nlToSpace, if_pos rfl]
      by_cases hrep : ¬p = true ∧ cs.head? ≠ some '\n'
      · rw [if_pos hrep]
        rw [noLoneNL, if_neg (by decide)]
        have hhead : (nlToSpace true cs).head? ≠ some '\n' := by
          rcases cs with _ | ⟨d, ds⟩
          · simp [nlToSpace]
          · have hd : d ≠ '\n' := by simpa using hrep.2
            rw [nlToSpace, if_neg hd]
            simpa using hd
        rw [noLoneNL_state_irrel hhead false true]
        exact ih true
      · rw [if_neg hrep]
        rw [noLoneNL, if_pos rfl]
        push_neg at hrep
        simp only [Bool.and_eq_true, Bool.or_eq_true]
        refine ⟨?_, ih true⟩
        by_cases hp : p = true
        · exact Or.inl hp
        · right
          have hh : cs.head? = some '\n' := hrep (by simpa using hp)
          simpa using nlToSpace_head_nl hh
    · rw [nlToSpace, if_neg hc, noLoneNL, if_neg hc]
      exact ih false

/-- After the newline-collapsing pass, every newline run has length
exactly two, provided no newline was lone; `k` counts the newlines of
the current (partially emitted) run. -/
theorem nlPairs_collapseNL : ∀ (l : List Char) (k : Nat),
    noLoneNL (decide (k ≠ 0)) l = true → (k = 1 → l.head? = some '\n') →
    nlPairs (min k 2) (collapseNL k l) = true := by
  intro l
  induction l with
  | nil =>
    intro k hlone hk1
    rw [collapseNL, nlPairs]
    simp only [decide_eq_true_eq, ne_eq]
    intro hmin
    rcases Nat.lt_or_ge k 2 with hk | hk
    · rw [Nat.min_eq_left (le_of_lt hk)] at hmin
      have := hk1 hmin
      simp at this
    · rw [Nat.min_eq_right hk] at hmin
      simp at hmin
  | cons c cs ih =>
    intro k hlone hk1
    by_cases hc : c = '\n'
    · subst hc
      rw [noLoneNL, if_pos rfl] at hlone
      simp only [Bool.and_eq_true, Bool.or_eq_true, decide_eq_true_eq] at hlone
      rw [collapseNL, if_pos rfl]
      have hnext1 : k + 1 = 1 → cs.head? = some '\n' := by
        intro h1
        have hk0 : k = 0 := by omega
        subst hk0
        rcases hlone.1 with h | h
        · simp at h
        · exact h
      have hIH := ih (k + 1) (by simpa using hlone.2) hnext1
      by_cases hk : k < 2
      · rw [if_pos hk]
        simp only [List.singleton_append]
        rw [nlPairs, if_pos rfl]
        simp only [Bool.and_eq_true, decide_eq_true_eq]
        refine ⟨by omega, ?_⟩
        rw [show min (k + 1) 2 = k + 1 from by omega] at hIH
        rw [show min k 2 = k from by omega]
        exact hIH
      · rw [if_neg hk]
        simp only [List.nil_append]
        rw [show min (k + 1) 2 = 2 from by omega] at hIH
        rw [show min k 2 = 2 from by omega]
        exact hIH
    · rw [noLoneNL, if_neg hc] at hlone
      have hkne1 : k ≠ 1 := by
        intro h1
        have := hk1 h1
        simp only [List.head?_cons, Option.some_inj] at this
        exact hc this
      rw [collapseNL, if_neg hc, nlPairs, if_neg hc]
      simp only [Bool.and_eq_true, decide_eq_true_eq]
      refine ⟨by omega, ?_⟩
      have hIH := ih 0 (by simpa using hlone) (by omega)
      simpa using hIH

/-- The space-collapsing pass preserves the newline-pair structure: it
never deletes a whole space run, so newline runs cannot merge. -/
theorem nlPairs_collapseSp : ∀ (l : List Char) (k : Nat) (p : Bool),
    (p = true → k = 0) → nlPairs k l = true → nlPairs k (collapseSp p l) = true := by
  intro l
  induction l with
  | nil => intro k p _ h; exact h
  | cons c cs ih =>
    intro k p hp h
    by_cases hc : c = ' '
    · subst hc
      rw [nlPairs, if_neg (by decide)] at h
      simp only [Bool.and_eq_true, decide_eq_true_eq] at h
      rw [collapseSp, if_pos rfl]
      by_cases hpt : p = true
      · rw [if_pos hpt]
        simp only [List.nil_append]
        rw [hp hpt]
        exact ih 0 true (fun _ => rfl) h.2
      · rw [if_neg hpt]
        simp only [List.singleton_append]
        rw [nlPairs, if_neg (by decide)]
        simp only [Bool.and_eq_true, decide_eq_true_eq]
        exact ⟨h.1, ih 0 true (fun _ => rfl) h.2⟩
    · by_cases hnl : c = '\n'
      · subst hnl
        rw [nlPairs, if_pos rfl] at h
        simp only [Bool.and_eq_true, decide_eq_true_eq] at h
        rw [collapseSp, if_neg hc, nlPairs, if_pos rfl]
        simp only [Bool.and_eq_true, decide_eq_true_eq]
        exact ⟨h.1, ih (k + 1) false (by simp) h.2⟩
      · rw [nlPairs, if_neg hnl] at h
        simp only [Bool.and_eq_true, decide_eq_true_eq] at h
        rw [collapseSp, if_neg hc, nlPairs, if_neg hnl]
        simp only [Bool.and_eq_true, decide_eq_true_eq]
        exact ⟨h.1, ih 0 false (by simp) h.2⟩

/-- Prepending a nonempty block of non-newline characters to a list
resets the `nlPairs` state: the whole checks iff the state is legal and
the remainder checks from state zero. -/
theorem nlPairs_append_nonNL : ∀ (u : List Char), u ≠ [] → (∀ c ∈ u, c ≠ '\n') →
    ∀ (k : Nat) (X : List Char), nlPairs k (u ++ X) = (decide (k ≠ 1) && nlPairs 0 X) := by
  intro u
  induction u with
  | nil => intro h; exact absurd rfl h
  | cons c u2 ih =>
    intro _ hnl k X
    rw [List.cons_append, nlPairs, if_neg (hnl c (by simp))]
    rcases u2 with _ | ⟨d, u3⟩
    · simp
    · rw [ih (by simp) (fun e he => hnl e (List.mem_cons_of_mem _ he)) 0 X]
      simp

/-- Unfolding: `replaceWord` on the empty list. -/
theorem replaceWord_nil (w0 : Char) (wr repl : List Char) (p : Bool) :
    replaceWord w0 wr repl p [] = [] := by
  rw [replaceWord.eq_def]

/-- Unfolding: `replaceWord` at a firing match. -/
theorem replaceWord_cons_fire {w0 : Char} {wr repl : List Char} {p : Bool} {c : Char}
    {cs : List Char}
    (hfire : c = w0 ∧ p = false ∧ wr.isPrefixOf cs = true ∧ headNotWord (cs.drop wr.length) = true) :
    replaceWord w0 wr repl p (c :: cs) = repl ++ replaceWord w0 wr repl true (cs.drop wr.length) := by
  obtain ⟨rfl, rfl, hpre, hlast⟩ := hfire
  rw [replaceWord.eq_def]
  exact if_pos ⟨rfl, rfl, hpre, hlast⟩

/-- Unfolding: `replaceWord` at a non-firing position. -/
theorem replaceWord_cons_nofire {w0 : Char} {wr repl : List Char} {p : Bool} {c : Char}
    {cs : List Char}
    (hfire : ¬(c = w0 ∧ p = false ∧ wr.isPrefixOf cs = true ∧ headNotWord (cs.drop wr.length) = true)) :
    replaceWord w0 wr repl p (c :: cs) = c :: replaceWord w0 wr repl (isWordChar c) cs := by
  cases p <;> (rw [replaceWord.eq_def]; exact if_neg hfire)

/-- The whole-word substitution preserves the newline-pair structure when
neither the pattern nor the replacement involves newlines and the
replacement is nonempty. -/
theorem nlPairs_replaceWord (w0 : Char) (wr repl : List Char) (hw0 : w0 ≠ '\n')
    (hwr : ∀ c ∈ wr, c ≠ '\n') (hrepl : ∀ c ∈ repl, c ≠ '\n') (hne : repl ≠ []) :
    ∀ (p : Bool) (l : List Char) (k : Nat),
      nlPairs k l = true → nlPairs k (replaceWord w0 wr repl p l) = true := by
  intro p l
  induction p, l using replaceWord.induct w0 wr repl with
  | case1 p => intro k h; rw [replaceWord_nil]; exact h
  | case2 p c cs hfire ih =>
    intro k h
    rw [replaceWord_cons_fire hfire]
    obtain ⟨rfl, -, hpre, -⟩ := hfire
    have hcs : wr ++ cs.drop wr.length = cs :=
      List.prefix_iff_eq_append.mp (List.isPrefixOf_iff_prefix.mp hpre)
    rw [nlPairs, if_neg hw0] at h
    simp only [Bool.and_eq_true, decide_eq_true_eq] at h
    have hrest : nlPairs 0 (cs.drop wr.length) = true := by
      rcases hwrn : wr with _ | ⟨w1, wrt⟩
      · simpa [hwrn] using h.2
      · have h2 := h.2
        rw [← hcs, hwrn, nlPairs_append_nonNL (w1 :: wrt) (by simp)
          (by rw [← hwrn]; exact hwr) 0 _] at h2
        simpa using h2
    rw [nlPairs_append_nonNL repl hne hrepl k _]
    simp only [Bool.and_eq_true, decide_eq_true_eq]
    exact ⟨h.1, ih 0 hrest⟩
  | case3 p c cs hfire ih =>
    intro k h
    rw [replaceWord_cons_nofire hfire]
    by_cases hc : c = '\n'
    · subst hc
      rw [nlPairs, if_pos rfl] at h ⊢
      simp only [Bool.and_eq_true, decide_eq_true_eq] at h ⊢
      exact ⟨h.1, ih (k + 1) h.2⟩
    · rw [nlPairs, if_neg hc] at h ⊢
      simp only [Bool.and_eq_true, decide_eq_true_eq] at h ⊢
      exact ⟨h.1, ih 0 h.2⟩

/-- Dropping a whitespace prefix preserves the newline-pair structure
(a whole leading run, if any, is removed). -/
theorem nlPairs_dropWhile : ∀ (l : List Char) (k : Nat),
    nlPairs k l = true → nlPairs 0 (l.dropWhile isSpaceChar) = true := by
  intro l
  induction l with
  | nil => intro k _; rfl
  | cons c cs ih =>
    intro k h
    by_cases hsp : isSpaceChar c = true
    · rw [List.dropWhile_cons, if_pos hsp]
      by_cases hc : c = '\n'
      · subst hc
        rw [nlPairs, if_pos rfl] at h
        simp only [Bool.and_eq_true, decide_eq_true_eq] at h
        exact ih (k + 1) h.2
      · rw [nlPairs, if_neg hc] at h
        simp only [Bool.and_eq_true, decide_eq_true_eq] at h
        exact ih 0 h.2
    · rw [List.dropWhile_cons, if_neg hsp]
      have hc : c ≠ '\n' := by
        intro h0
        subst h0
        exact hsp (by decide)
      rw [nlPairs, if_neg hc] at h ⊢
      simp only [Bool.and_eq_true, decide_eq_true_eq] at h ⊢
      exact ⟨by simp, h.2⟩

/-- Removing a trailing all-whitespace block after a non-whitespace
character preserves the newline-pair structure. -/
theorem nlPairs_cut_ws_suffix : ∀ (u : List Char) (z : Char) (s : List Char) (k : Nat),
    (∀ c ∈ s, isSpaceChar c = true) → isSpaceChar z = false →
    nlPairs k (u ++ z :: s) = true → nlPairs k (u ++ [z]) = true := by
  intro u
  induction u with
  | nil =>
    intro z s k hs hz h
    have hzNL : z ≠ '\n' := by
      intro h0
      subst h0
      simp [isSpaceChar] at hz
    simp only [List.nil_append] at h ⊢
    rw [nlPairs, if_neg hzNL] at h ⊢
    simp only [Bool.and_eq_true, decide_eq_true_eq] at h ⊢
    exact ⟨h.1, rfl⟩
  | cons c u2 ih =>
    intro z s k hs hz h
    rw [List.cons_append] at h ⊢
    by_cases hc : c = '\n'
    · subst hc
      rw [nlPairs, if_pos rfl] at h ⊢
      simp only [Bool.and_eq_true, decide_eq_true_eq] at h ⊢
      exact ⟨h.1, ih z s (k + 1) hs hz h.2⟩
    · rw [nlPairs, if_neg hc] at h ⊢
      simp only [Bool.and_eq_true, decide_eq_true_eq] at h ⊢
      exact ⟨h.1, ih z s 0 hs hz h.2⟩

/-- `rstrip` preserves the newline-pair structure. -/
theorem nlPairs_rstrip (l : List Char) (h : nlPairs 0 l = true) : nlPairs 0 (rstrip l) = true := by
  rcases hr : rstrip l with _ | ⟨r0, rs⟩
  · rfl
  · rcases rstrip_decomp l with ⟨s, hs, hsp⟩
    have hend := endsNonWS_rstrip l
    rw [hr] at hs hend
    have hne : (r0 :: rs) ≠ [] := by simp
    have hu2 : (r0 :: rs).dropLast ++ [(r0 :: rs).getLast hne] = r0 :: rs :=
      List.dropLast_append_getLast hne
    rw [endsNonWS, List.getLast?_eq_getLast _ hne] at hend
    rw [← hu2]
    rw [hs, ← hu2, List.append_assoc, List.singleton_append] at h
    exact nlPairs_cut_ws_suffix _ _ s 0 hsp (by simpa using hend) h

/-- The space-collapsing pass leaves no two adjacent spaces. -/
theorem spOk_collapseSp : ∀ (l : List Char) (p : Bool), spOk p (collapseSp p l) = true := by
  intro l
  induction l with
  | nil => intro p; rfl
  | cons c cs ih =>
    intro p
    by_cases hc : c = ' '
    · subst hc
      rw [collapseSp, if_pos rfl]
      by_cases hp : p = true
      · rw [if_pos hp, hp]
        simpa using ih true
      · rw [if_neg hp]
        simp only [List.singleton_append]
        rw [spOk, if_pos rfl]
        simp only [Bool.and_eq_true, Bool.not_eq_eq_eq_not, Bool.not_true]
        exact ⟨by simpa using hp, ih true⟩
    · rw [collapseSp, if_neg hc, spOk, if_neg hc]
      exact ih false

/-- Prepending a nonempty block of non-space characters to a list resets
the `spOk` state. -/
theorem spOk_append_nonSp : ∀ (u : List Char), u ≠ [] → (∀ c ∈ u, c ≠ ' ') →
    ∀ (q : Bool) (X : List Char), spOk q (u ++ X) = spOk false X := by
  intro u
  induction u with
  | nil => intro h; exact absurd rfl h
  | cons c u2 ih =>
    intro _ hnsp q X
    rw [List.cons_append, spOk, if_neg (hnsp c (by simp))]
    rcases u2 with _ | ⟨d, u3⟩
    · simp
    · exact ih (by simp) (fun e he => hnsp e (List.mem_cons_of_mem _ he)) false X

/-- The whole-word substitution preserves the no-adjacent-spaces
invariant when pattern and replacement are space-free. -/
theorem spOk_replaceWord (w0 : Char) (wr repl : List Char) (hw0 : w0 ≠ ' ')
    (hwr : ∀ c ∈ wr, c ≠ ' ') (hrepl : ∀ c ∈ repl, c ≠ ' ') (hne : repl ≠ []) :
    ∀ (p : Bool) (l : List Char) (q : Bool),
      spOk q l = true → spOk q (replaceWord w0 wr repl p l) = true := by
  intro p l
  induction p, l using replaceWord.induct w0 wr repl with
  | case1 p => intro q h; rw [replaceWord_nil]; exact h
  | case2 p c cs hfire ih =>
    intro q h
    rw [replaceWord_cons_fire hfire]
    obtain ⟨rfl, -, hpre, -⟩ := hfire
    have hcs : wr ++ cs.drop wr.length = cs :=
      List.prefix_iff_eq_append.mp (List.isPrefixOf_iff_prefix.mp hpre)
    rw [spOk, if_neg hw0] at h
    have hrest : spOk false (cs.drop wr.length) = true := by
      rcases hwrn : wr with _ | ⟨w1, wrt⟩
      · simpa [hwrn] using h
      · have h2 := h
        rw [← hcs, hwrn, spOk_append_nonSp (w1 :: wrt) (by simp)
          (by rw [← hwrn]; exact hwr) false _] at h2
        exact h2
    rw [spOk_append_nonSp repl hne hrepl q _]
    exact ih false hrest
  | case3 p c cs hfire ih =>
    intro q h
    rw [replaceWord_cons_nofire hfire]
    by_cases hc : c = ' '
    · subst hc
      rw [spOk, if_pos rfl] at h ⊢
      simp only [Bool.and_eq_true] at h ⊢
      exact ⟨h.1, ih true h.2⟩
    · rw [spOk, if_neg hc] at h ⊢
      exact ih false h

/-- `spOk` restricts to prefixes. -/
theorem spOk_append_left : ∀ (a b : List Char) (q : Bool),
    spOk q (a ++ b) = true → spOk q a = true := by
  intro a
  induction a with
  | nil => intro b q _; rfl
  | cons c a2 ih =>
    intro b q h
    rw [List.cons_append] at h
    by_cases hc : c = ' '
    · subst hc
      rw [spOk, if_pos rfl] at h ⊢
      simp only [Bool.and_eq_true] at h ⊢
      exact ⟨h.1, ih b true h.2⟩
    · rw [spOk, if_neg hc] at h ⊢
      exact ih b false h

/-- Dropping a whitespace prefix preserves the no-adjacent-spaces
invariant. -/
theorem spOk_dropWhile : ∀ (l : List Char) (q : Bool),
    spOk q l = true → spOk false (l.dropWhile isSpaceChar) = true := by
  intro l
  induction l with
  | nil => intro q _; rfl
  | cons c cs ih =>
    intro q h
    by_cases hsp : isSpaceChar c = true
    · rw [List.dropWhile_cons, if_pos hsp]
      by_cases hc : c = ' '
      · subst hc
        rw [spOk, if_pos rfl] at h
        simp only [Bool.and_eq_true] at h
        exact ih true h.2
      · rw [spOk, if_neg hc] at h
        exact ih false h
    · rw [List.dropWhile_cons, if_neg hsp]
      have hc : c ≠ ' ' := by
        intro h0
        subst h0
        exact hsp (by decide)
      rw [spOk, if_neg hc] at h ⊢
      rcases q with _ | _
      · exact h
      · exact h

/-- `rstrip` preserves the no-adjacent-spaces invariant. -/
theorem spOk_rstrip (l : List Char) (q : Bool) (h : spOk q l = true) :
    spOk q (rstrip l) = true := by
  rcases rstrip_decomp l with ⟨s, hs, _⟩
  rw [hs] at h
  exact spOk_append_left _ s q h

/-- Splitting `occFree` at a cons cell. -/
theorem occFree_cons_iff {w0 : Char} {wr : List Char} {p : Bool} {c : Char} {cs : List Char} :
    occFree w0 wr p (c :: cs) = true ↔
      ¬(c = w0 ∧ p = false ∧ wr.isPrefixOf cs = true ∧ headNotWord (cs.drop wr.length) = true)
        ∧ occFree w0 wr (isWordChar c) cs = true := by
  rw [occFree]
  simp only [Bool.and_eq_true, Bool.not_eq_true', decide_eq_false_iff_not]

/-- With previous-word state the substitution cannot fire at the head, so
the head of the output is the head of the input. -/
theorem replaceWord_true_head (w0 : Char) (wr repl : List Char) (cs : List Char) :
    (replaceWord w0 wr repl true cs).head? = cs.head? := by
  rcases cs with _ | ⟨c, cs2⟩
  · rw [replaceWord_nil]
  · rw [replaceWord_cons_nofire (by simp)]
    simp

/-- A word-character prefix of the output of a previous-word-state scan
is a literal prefix of the input, and the remainder of the output is the
scan of the remainder of the input (no match can start inside it). -/
theorem replaceWord_true_word_prefix (w0 : Char) (wr repl : List Char) :
    ∀ (u : List Char), (∀ c ∈ u, isWordChar c = true) →
      ∀ (cs X : List Char), replaceWord w0 wr repl true cs = u ++ X →
        cs = u ++ cs.drop u.length ∧ X = replaceWord w0 wr repl true (cs.drop u.length) := by
  intro u
  induction u with
  | nil => intro _ cs X h; simpa using h.symm
  | cons d u2 ih =>
    intro hword cs X h
    rcases cs with _ | ⟨c, cs2⟩
    · rw [replaceWord_nil] at h
      simp at h
    · rw [replaceWord_cons_nofire (by simp)] at h
      simp only [List.cons_append, List.cons.injEq] at h
      obtain ⟨rfl, h2⟩ := h
      have hcw : isWordChar c = true := hword c (by simp)
      rw [hcw] at h2
      obtain ⟨hA, hB⟩ := ih (fun e he => hword e (List.mem_cons_of_mem _ he)) cs2 X h2
      constructor
      · simpa using hA
      · simpa using hB

/-- Lists with the same head agree on `headNotWord`. -/
theorem headNotWord_congr {l1 l2 : List Char} (h : l1.head? = l2.head?) :
    headNotWord l1 = headNotWord l2 := by
  rcases l1 with _ | ⟨a, as⟩ <;> rcases l2 with _ | ⟨b, bs⟩ <;>
    simp_all [headNotWord]

/-- Stepping `occFree` over a block of word characters from previous-word
state keeps the state at previous-word. -/
theorem occFree_step_words (a0 : Char) (ar : List Char) :
    ∀ (u : List Char), (∀ c ∈ u, isWordChar c = true) →
      ∀ (X : List Char), occFree a0 ar true (u ++ X) = true → occFree a0 ar true X = true := by
  intro u
  induction u with
  | nil => intro _ X h; exact h
  | cons d u2 ih =>
    intro hword X h
    rw [List.cons_append] at h
    rcases occFree_cons_iff.mp h with ⟨-, h2⟩
    rw [hword d (by simp)] at h2
    exact ih (fun e he => hword e (List.mem_cons_of_mem _ he)) X h2

/-- The output of a whole-word substitution contains no whole-word
occurrence of its own pattern, provided the pattern consists of word
characters and scanning the replacement never fires (hypothesis
`hstep`). -/
theorem occFree_replaceWord_self (w0 : Char) (wr repl : List Char)
    (hw0 : isWordChar w0 = true) (hwr : ∀ c ∈ wr, isWordChar c = true)
    (hstep : ∀ X, occFree w0 wr true X = true → occFree w0 wr false (repl ++ X) = true) :
    ∀ (p : Bool) (l : List Char), occFree w0 wr p (replaceWord w0 wr repl p l) = true := by
  intro p l
  induction p, l using replaceWord.induct w0 wr repl with
  | case1 p => rw [replaceWord_nil]; rfl
  | case2 p c cs hfire ih =>
    rw [replaceWord_cons_fire hfire]
    obtain ⟨-, rfl, -, -⟩ := hfire
    exact hstep _ ih
  | case3 p c cs hfire ih =>
    rw [replaceWord_cons_nofire hfire]
    refine occFree_cons_iff.mpr ⟨?_, ih⟩
    rintro ⟨hcw0, hp, hpre, hlast⟩
    rw [hcw0, hw0] at hpre hlast
    obtain ⟨hA, hB⟩ := replaceWord_true_word_prefix w0 wr repl wr hwr cs _
      (List.prefix_iff_eq_append.mp (List.isPrefixOf_iff_prefix.mp hpre)).symm
    have hpre2 : wr.isPrefixOf cs = true :=
      List.isPrefixOf_iff_prefix.mpr ⟨cs.drop wr.length, hA.symm⟩
    have hlast2 : headNotWord (cs.drop wr.length) = true := by
      have hc := headNotWord_congr (replaceWord_true_head w0 wr repl (cs.drop wr.length))
      rw [← hc, ← hB]
      exact hlast
    exact absurd ⟨hcw0, hp, hpre2, hlast2⟩ hfire

/-- A whole-word substitution for pattern `b0 :: br` preserves absence of
whole-word occurrences of a different word-character pattern `a0 :: ar`,
provided scanning the replacement `R` creates no occurrence (`hstepR`). -/
theorem occFree_replaceWord_other (a0 b0 : Char) (ar br R : List Char)
    (ha0 : isWordChar a0 = true) (har : ∀ c ∈ ar, isWordChar c = true)
    (hb0 : isWordChar b0 = true) (hbr : ∀ c ∈ br, isWordChar c = true)
    (hstepR : ∀ (q : Bool) (X : List Char), occFree a0 ar true X = true →
      occFree a0 ar q (R ++ X) = true) :
    ∀ (p : Bool) (l : List Char), occFree a0 ar p l = true →
      occFree a0 ar p (replaceWord b0 br R p l) = true := by
  intro p l
  induction p, l using replaceWord.induct b0 br R with
  | case1 p => intro h; rw [replaceWord_nil]; exact h
  | case2 p c cs hfire ih =>
    intro hin
    rw [replaceWord_cons_fire hfire]
    obtain ⟨hc, hp, hpre, hhead⟩ := hfire
    obtain ⟨-, h2⟩ := occFree_cons_iff.mp hin
    rw [hc, hb0] at h2
    have hcs : cs = br ++ cs.drop br.length :=
      (List.prefix_iff_eq_append.mp (List.isPrefixOf_iff_prefix.mp hpre)).symm
    have h3 : occFree a0 ar true (cs.drop br.length) = true := by
      refine occFree_step_words a0 ar br hbr _ ?_
      rw [← hcs]
      exact h2
    exact hstepR p _ (ih h3)
  | case3 p c cs hfire ih =>
    intro hin
    rw [replaceWord_cons_nofire hfire]
    obtain ⟨hnf, h2⟩ := occFree_cons_iff.mp hin
    refine occFree_cons_iff.mpr ⟨?_, ih h2⟩
    rintro ⟨hca, hp, hpre, hlast⟩
    rw [hca, ha0] at hpre hlast
    obtain ⟨hA, hB⟩ := replaceWord_true_word_prefix b0 br R ar har cs _
      (List.prefix_iff_eq_append.mp (List.isPrefixOf_iff_prefix.mp hpre)).symm
    have hpre2 : ar.isPrefixOf cs = true :=
      List.isPrefixOf_iff_prefix.mpr ⟨cs.drop ar.length, hA.symm⟩
    have hlast2 : headNotWord (cs.drop ar.length) = true := by
      have hc := headNotWord_congr (replaceWord_true_head b0 br R (cs.drop ar.length))
      rw [← hc, ← hB]
      exact hlast
    exact hnf ⟨hca, hp, hpre2, hlast2⟩

/-- Appending trailing whitespace cannot remove whole-word occurrences:
if the extended text is occurrence-free, so is the stripped one. -/
theorem occFree_append_ws (w0 : Char) (wr : List Char) :
    ∀ (a s : List Char) (q : Bool), (∀ c ∈ s, isSpaceChar c = true) →
      occFree w0 wr q (a ++ s) = true → occFree w0 wr q a = true := by
  intro a
  induction a with
  | nil => intro s q _ _; rfl
  | cons c cs ih =>
    intro s q hsp h
    rw [List.cons_append] at h
    obtain ⟨h1, h2⟩ := occFree_cons_iff.mp h
    refine occFree_cons_iff.mpr ⟨?_, ih s _ hsp h2⟩
    rintro ⟨hc, hp, hpre, hlast⟩
    refine h1 ⟨hc, hp, ?_, ?_⟩
    · exact List.isPrefixOf_iff_prefix.mpr
        ((List.isPrefixOf_iff_prefix.mp hpre).trans (List.prefix_append cs s))
    · have hn : wr.length ≤ cs.length :=
        (List.isPrefixOf_iff_prefix.mp hpre).length_le
      rw [List.drop_append_of_le_length hn]
      rcases hd : cs.drop wr.length with _ | ⟨d, ds⟩
      · rw [List.nil_append]
        rcases s with _ | ⟨e, es⟩
        · rfl
        · rw [headNotWord]
          simp [space_not_word (hsp e (by simp))]
      · rw [hd] at hlast
        rw [List.cons_append]
        exact hlast

/-- Dropping leading whitespace preserves occurrence-freeness from
non-word state. -/
theorem occFree_dropWhile (w0 : Char) (wr : List Char) :
    ∀ (l : List Char), occFree w0 wr false l = true →
      occFree w0 wr false (l.dropWhile isSpaceChar) = true := by
  intro l
  induction l with
  | nil => intro h; exact h
  | cons c cs ih =>
    intro h
    obtain ⟨h1, h2⟩ := occFree_cons_iff.mp h
    by_cases hc : isSpaceChar c = true
    · rw [List.dropWhile_cons_of_pos hc]
      rw [space_not_word hc] at h2
      exact ih h2
    · rw [List.dropWhile_cons_of_neg (by simpa using hc)]
      exact h

/-- Stripping trailing whitespace preserves occurrence-freeness. -/
theorem occFree_rstrip (w0 : Char) (wr : List Char) (p : Bool) (l : List Char)
    (h : occFree w0 wr p l = true) : occFree w0 wr p (rstrip l) = true := by
  rcases rstrip_decomp l with ⟨s, hs, hsp⟩
  rw [hs] at h
  exact occFree_append_ws w0 wr _ s p hsp h

/-- Scanning the replacement "AI" from any state creates no whole-word
occurrence of "Al". -/
theorem hstepAl_AI (q : Bool) (X : List Char) (h : occFree 'A' ['l'] true X = true) :
    occFree 'A' ['l'] q ('A' :: 'I' :: X) = true := by
  simp [occFree, List.isPrefixOf, show isWordChar 'I' = true from rfl, h]

/-- Scanning the replacement "OpenAI" from any state creates no whole-word
occurrence of "Al". -/
theorem hstepAl_OpenAI (q : Bool) (X : List Char) (h : occFree 'A' ['l'] true X = true) :
    occFree 'A' ['l'] q ("OpenAI".data ++ X) = true := by
  simp [occFree, List.isPrefixOf, show isWordChar 'I' = true from rfl, h]

/-- Scanning the replacement "OpenAI" from any state creates no whole-word
occurrence of "OpenAl". -/
theorem hstepOpenAl_OpenAI (q : Bool) (X : List Char)
    (h : occFree 'O' "penAl".data true X = true) :
    occFree 'O' "penAl".data q ("OpenAI".data ++ X) = true := by
  simp [occFree, List.isPrefixOf, show isWordChar 'I' = true from rfl, h]

/-- Scanning the replacement "AI" from any state creates no whole-word
occurrence of "OpenAl". -/
theorem hstepOpenAl_AI (q : Bool) (X : List Char)
    (h : occFree 'O' "penAl".data true X = true) :
    occFree 'O' "penAl".data q ('A' :: 'I' :: X) = true := by
  simp [occFree, List.isPrefixOf, show isWordChar 'I' = true from rfl, h]

/-- Scanning the replacement "AI" from any state creates no whole-word
occurrence of "El". -/
theorem hstepEl_AI (q : Bool) (X : List Char) (h : occFree 'E' ['l'] true X = true) :
    occFree 'E' ['l'] q ('A' :: 'I' :: X) = true := by
  simp [occFree, List.isPrefixOf, show isWordChar 'I' = true from rfl, h]

/-- Any text satisfying the seven invariants of cleaned text is a fixed
point of `clean_pdf_text`: every pass acts as the identity on it. -/
theorem clean_fixed (z : List Char) (hA : nlPairs 0 z = true) (hS : spOk false z = true)
    (hAl : occFree 'A' ['l'] false z = true)
    (hOp : occFree 'O' "penAl".data false z = true)
    (hEl : occFree 'E' ['l'] false z = true)
    (h1 : startsNonWS z = true) (h2 : endsNonWS z = true) :
    clean_pdf_text z = z := by
  rw [clean_pdf_text]
  rw [hyphenJoin_id .non z 0 hA]
  rw [show nlToSpace false z = z from nlToSpace_id z 0 hA]
  rw [collapseNL_id z 0 hA]
  rw [collapseSp_id z false hS]
  rw [show fixAl z = z from replaceWord_id 'A' ['l'] ('A' :: ['I']) false z hAl]
  rw [show fixOpenAl z = z from replaceWord_id 'O' "penAl".data "OpenAI".data false z hOp]
  rw [show fixEl z = z from replaceWord_id 'E' ['l'] ('A' :: ['I']) false z hEl]
  exact stripWS_id z h1 h2

/-- C5: `clean_pdf_text` (split_pdf.py lines 30-48) is idempotent — applied
to its own output it returns that output unchanged, so the cleaning rules
never reintroduce material for one another: hyphenated line breaks are gone,
every newline run has length exactly two, no two spaces are adjacent, the
OCR misreads Al/OpenAl/El never occur as whole words, and the text is
stripped of leading and trailing whitespace. -/
theorem c5_clean_pdf_text_idempotent (raw_text : List Char) :
    clean_pdf_text (clean_pdf_text raw_text) = clean_pdf_text raw_text := by
  refine clean_fixed (clean_pdf_text raw_text) ?_ ?_ ?_ ?_ ?_ ?_ ?_
  · rw [clean_pdf_text, stripWS]
    refine nlPairs_rstrip _ (nlPairs_dropWhile _ 0 ?_)
    refine nlPairs_replaceWord 'E' ['l'] ('A' :: ['I'])
      (by decide) (by decide) (by decide) (by decide) false _ 0 ?_
    refine nlPairs_replaceWord 'O' "penAl".data "OpenAI".data
      (by decide) (by decide) (by decide) (by decide) false _ 0 ?_
    refine nlPairs_replaceWord 'A' ['l'] ('A' :: ['I'])
      (by decide) (by decide) (by decide) (by decide) false _ 0 ?_
    refine nlPairs_collapseSp _ 0 false (by simp) ?_
    exact nlPairs_collapseNL (nlToSpace false (hyphenJoin .non raw_text)) 0
      (noLoneNL_nlToSpace (hyphenJoin .non raw_text) false) (by simp)
  · rw [clean_pdf_text, stripWS]
    refine spOk_rstrip _ false (spOk_dropWhile _ false ?_)
    refine spOk_replaceWord 'E' ['l'] ('A' :: ['I'])
      (by decide) (by decide) (by decide) (by decide) false _ false ?_
    refine spOk_replaceWord 'O' "penAl".data "OpenAI".data
      (by decide) (by decide) (by decide) (by decide) false _ false ?_
    refine spOk_replaceWord 'A' ['l'] ('A' :: ['I'])
      (by decide) (by decide) (by decide) (by decide) false _ false ?_
    exact spOk_collapseSp _ false
  · rw [clean_pdf_text, stripWS]
    refine occFree_rstrip _ _ false _ (occFree_dropWhile _ _ _ ?_)
    refine occFree_replaceWord_other 'A' 'E' ['l'] ['l'] ('A' :: ['I'])
      (by decide) (by decide) (by decide) (by decide) hstepAl_AI false _ ?_
    refine occFree_replaceWord_other 'A' 'O' ['l'] "penAl".data "OpenAI".data
      (by decide) (by decide) (by decide) (by decide) hstepAl_OpenAI false _ ?_
    exact occFree_replaceWord_self 'A' ['l'] ('A' :: ['I']) (by decide) (by decide)
      (fun X h => hstepAl_AI false X h) false _
  · rw [clean_pdf_text, stripWS]
    refine occFree_rstrip _ _ false _ (occFree_dropWhile _ _ _ ?_)
    refine occFree_replaceWord_other 'O' 'E' "penAl".data ['l'] ('A' :: ['I'])
      (by decide) (by decide) (by decide) (by decide) hstepOpenAl_AI false _ ?_
    exact occFree_replaceWord_self 'O' "penAl".data "OpenAI".data (by decide) (by decide)
      (fun X h => hstepOpenAl_OpenAI false X h) false _
  · rw [clean_pdf_text, stripWS]
    refine occFree_rstrip _ _ false _ (occFree_dropWhile _ _ _ ?_)
    exact occFree_replaceWord_self 'E' ['l'] ('A' :: ['I']) (by decide) (by decide)
      (fun X h => hstepEl_AI false X h) false _
  · rw [clean_pdf_text]
    exact startsNonWS_stripWS _
  · rw [clean_pdf_text]
    exact endsNonWS_stripWS _

/-- Relaxing the previous-dash state only weakens the `dashFree` condition. -/
theorem dashFree_false_of : ∀ (l : List Char) (p : Bool),
    dashFree p l = true → dashFree false l = true := by
  intro l
  induction l with
  | nil => intro p h; exact h
  | cons c cs _ =>
    intro p h
    rw [dashFree] at h ⊢
    simp only [Bool.and_eq_true] at h ⊢
    exact ⟨by simp, h.2⟩

/-- The `dashFree` automaton decides absence of a `"-\n"` infix (with the
state accounting for a pending dash). -/
theorem dashFree_iff : ∀ (l : List Char) (p : Bool),
    dashFree p l = true ↔
      ¬(p = true ∧ l.head? = some '\n') ∧ ¬ (('-' :: ['\n']) <:+: l) := by
  intro l
  induction l with
  | nil =>
    intro p
    constructor
    · intro _
      refine ⟨?_, ?_⟩
      · rintro ⟨-, h⟩; simp at h
      · intro h; have := h.sublist.length_le; simp at this
    · intro _; rfl
  | cons c cs ih =>
    intro p
    have hpre : (('-' :: ['\n']) <+: c :: cs) ↔ (c = '-' ∧ cs.head? = some '\n') := by
      rw [List.cons_prefix_cons]
      constructor
      · rintro ⟨h1, h2⟩
        refine ⟨h1.symm, ?_⟩
        rcases cs with _ | ⟨d, ds⟩
        · have := h2.sublist.length_le; simp at this
        · rcases List.cons_prefix_cons.mp h2 with ⟨h3, -⟩
          rw [List.head?_cons, h3]
      · rintro ⟨rfl, h2⟩
        rcases cs with _ | ⟨d, ds⟩
        · simp at h2
        · simp only [List.head?_cons, Option.some_inj] at h2
          exact ⟨rfl, by simp [h2]⟩
    rw [dashFree, List.infix_cons_iff, hpre]
    simp only [Bool.and_eq_true, Bool.not_eq_true', Bool.and_eq_false_iff,
      decide_eq_false_iff_not, decide_eq_true_eq, ih, List.head?_cons, Option.some_inj]
    cases p <;> simp

/-- Gluing `dashFree` across an append, handing the dash state over at the
junction. -/
theorem dashFree_append_state : ∀ (A : List Char) (p : Bool) (B : List Char),
    dashFree p A = true →
    dashFree (A.getLast?.elim p (fun e => decide (e = '-'))) B = true →
    dashFree p (A ++ B) = true := by
  intro A
  induction A with
  | nil => intro p B _ hB; simpa using hB
  | cons c A2 ih =>
    intro p B hA hB
    rw [dashFree] at hA
    rw [List.cons_append, dashFree]
    simp only [Bool.and_eq_true] at hA ⊢
    refine ⟨hA.1, ih _ _ hA.2 ?_⟩
    rcases A2 with _ | ⟨d, A3⟩
    · simpa using hB
    · simpa [List.getLast?_cons_cons] using hB

/-- With no `"-\n"` infix the hyphen-join pass copies its input verbatim,
from any scanner state. -/
theorem hyphenJoin_copy : ∀ (l : List Char) (st : HJState),
    dashFree false l = true → hyphenJoin st l = l := by
  intro l
  induction l with
  | nil => intro st _; exact hyphenJoin_nil st
  | cons c cs ih =>
    intro st h
    rw [dashFree] at h
    simp only [Bool.and_eq_true] at h
    rcases hw : isWordChar c with _ | _
    · by_cases hdash : c = '-' ∧ st = .avail
      · obtain ⟨rfl, rfl⟩ := hdash
        have h2 : dashFree true cs = true := by simpa using h.2
        rcases cs with _ | ⟨e, cs2⟩
        · rw [hyphenJoin_dash_nomatch (by intro d cs2 hEq; exact List.noConfusion hEq)]
          rw [hyphenJoin_nil]
        · have he : e ≠ '\n' := by
            rw [dashFree] at h2
            simp only [Bool.and_eq_true, Bool.not_eq_true', Bool.and_eq_false_iff] at h2
            rcases h2.1 with h2a | h2a
            · exact absurd h2a (by simp)
            · simpa using h2a
          rw [hyphenJoin_dash_nomatch (by intro d cs3 hEq; exact he (List.head_eq_of_cons_eq hEq))]
          rw [ih .non (dashFree_false_of _ _ h.2)]
      · rw [hyphenJoin_cons_other hw hdash]
        rw [ih .non (dashFree_false_of _ _ h.2)]
    · rw [hyphenJoin_cons_word hw]
      rw [ih st.step (dashFree_false_of _ _ h.2)]

/-- Scanning a nonempty block of word characters from a non-consumed state
copies it and leaves the scanner with an available word run. -/
theorem hyphenJoin_words : ∀ (X : List Char), (∀ c ∈ X, isWordChar c = true) → X ≠ [] →
    ∀ st, st ≠ .consumed → ∀ rest, hyphenJoin st (X ++ rest) = X ++ hyphenJoin .avail rest := by
  intro X
  induction X with
  | nil => intro _ hne; exact absurd rfl hne
  | cons x X2 ih =>
    intro hw _ st hst rest
    rw [List.cons_append, hyphenJoin_cons_word (hw x (by simp))]
    have hstep : st.step = .avail := by
      cases st
      · rfl
      · rfl
      · exact absurd rfl hst
    rw [hstep]
    rcases X2 with _ | ⟨y, X3⟩
    · rfl
    · rw [ih (fun e he => hw e (List.mem_cons_of_mem _ he)) (by simp) .avail (by simp) rest]
      rfl

/-- The hyphen-join pass deletes the designated `-`+newline between two
word runs and copies everything else verbatim, provided no other `"-\n"`
occurs. -/
theorem hyphenJoin_merge (X Y : List Char) (hX : X ≠ []) (hXw : ∀ c ∈ X, isWordChar c = true)
    (hY : Y ≠ []) (hYw : ∀ c ∈ Y, isWordChar c = true) :
    ∀ (u : List Char) (st : HJState), st ≠ .consumed → dashFree false (u ++ X) = true →
      ∀ v, dashFree false (Y ++ v) = true →
      hyphenJoin st ((u ++ X) ++ '-' :: '\n' :: (Y ++ v)) = ((u ++ X) ++ Y) ++ v := by
  intro u
  induction u with
  | nil =>
    intro st hst _ v hv
    simp only [List.nil_append]
    rw [hyphenJoin_words X hXw hX st hst]
    rcases Y with _ | ⟨y0, Y2⟩
    · exact absurd rfl hY
    · rw [List.cons_append, hyphenJoin_dash_word (hYw y0 (by simp))]
      have hv2 : dashFree false (Y2 ++ v) = true := by
        rw [List.cons_append, dashFree] at hv
        simp only [Bool.and_eq_true] at hv
        exact dashFree_false_of _ _ hv.2
      rw [hyphenJoin_copy _ .consumed hv2]
      simp
  | cons c u2 ih =>
    intro st hst hu v hv
    simp only [List.cons_append] at hu ⊢
    rw [dashFree] at hu
    simp only [Bool.and_eq_true] at hu
    have hu2 : dashFree false (u2 ++ X) = true := dashFree_false_of _ _ hu.2
    rcases hw : isWordChar c with _ | _
    · by_cases hdash : c = '-' ∧ st = .avail
      · obtain ⟨rfl, rfl⟩ := hdash
        have hud : dashFree true (u2 ++ X) = true := by simpa using hu.2
        have hhead : ∀ d cs3, (u2 ++ X) ++ '-' :: '\n' :: (Y ++ v) ≠ '\n' :: d :: cs3 := by
          intro d cs3 hEq
          rcases he : u2 ++ X with _ | ⟨e, rest⟩
          · exact absurd he (by simp [hX])
          · rw [he, List.cons_append] at hEq
            have he2 : e ≠ '\n' := by
              rw [he, dashFree] at hud
              simp only [Bool.and_eq_true, Bool.not_eq_true', Bool.and_eq_false_iff] at hud
              rcases hud.1 with h2a | h2a
              · exact absurd h2a (by simp)
              · simpa using h2a
            exact he2 (List.head_eq_of_cons_eq hEq)
        rw [hyphenJoin_dash_nomatch hhead]
        rw [ih .non (by simp) hu2 v hv]
      · rw [hyphenJoin_cons_other hw hdash]
        rw [ih .non (by simp) hu2 v hv]
    · rw [hyphenJoin_cons_word hw]
      have hns : st.step ≠ .consumed := by
        cases st
        · simp [HJState.step]
        · simp [HJState.step]
        · exact absurd rfl hst
      rw [ih st.step hns hu2 v hv]

/-- The lone-newline pass copies a nonempty newline-free block verbatim. -/
theorem nlToSpace_words : ∀ (u : List Char), u ≠ [] → (∀ c ∈ u, c ≠ '\n') →
    ∀ (q : Bool) (rest : List Char), nlToSpace q (u ++ rest) = u ++ nlToSpace false rest := by
  intro u
  induction u with
  | nil => intro h; exact absurd rfl h
  | cons x u2 ih =>
    intro _ hw q rest
    rw [List.cons_append, nlToSpace, if_neg (hw x (by simp))]
    rcases u2 with _ | ⟨y, u3⟩
    · rfl
    · rw [ih (by simp) (fun e he => hw e (List.mem_cons_of_mem _ he)) false rest]
      rfl

/-- The newline-collapse pass copies a nonempty newline-free block verbatim
and resets its counter. -/
theorem collapseNL_words : ∀ (u : List Char), u ≠ [] → (∀ c ∈ u, c ≠ '\n') →
    ∀ (k : Nat) (rest : List Char), collapseNL k (u ++ rest) = u ++ collapseNL 0 rest := by
  intro u
  induction u with
  | nil => intro h; exact absurd rfl h
  | cons x u2 ih =>
    intro _ hw k rest
    rw [List.cons_append, collapseNL, if_neg (hw x (by simp))]
    rcases u2 with _ | ⟨y, u3⟩
    · rfl
    · rw [ih (by simp) (fun e he => hw e (List.mem_cons_of_mem _ he)) 0 rest]
      rfl

/-- The space-collapse pass copies a nonempty space-free block verbatim and
resets its state. -/
theorem collapseSp_words : ∀ (u : List Char), u ≠ [] → (∀ c ∈ u, c ≠ ' ') →
    ∀ (q : Bool) (rest : List Char), collapseSp q (u ++ rest) = u ++ collapseSp false rest := by
  intro u
  induction u with
  | nil => intro h; exact absurd rfl h
  | cons x u2 ih =>
    intro _ hw q rest
    rw [List.cons_append, collapseSp, if_neg (hw x (by simp))]
    rcases u2 with _ | ⟨y, u3⟩
    · rfl
    · rw [ih (by simp) (fun e he => hw e (List.mem_cons_of_mem _ he)) false rest]
      rfl

/-- From previous-word state the substitution copies a block of word
characters verbatim (no match can begin inside it). -/
theorem replaceWord_true_words (w0 : Char) (wr repl : List Char) :
    ∀ (u : List Char), (∀ c ∈ u, isWordChar c = true) →
      ∀ (rest : List Char),
        replaceWord w0 wr repl true (u ++ rest) = u ++ replaceWord w0 wr repl true rest := by
  intro u
  induction u with
  | nil => intro _ rest; rfl
  | cons c u2 ih =>
    intro hw rest
    rw [List.cons_append, replaceWord_cons_nofire (by simp), hw c (by simp),
      ih (fun e he => hw e (List.mem_cons_of_mem _ he)) rest]
    rfl

/-- The newline-collapse pass with counter zero keeps the first character. -/
theorem collapseNL_zero_head (l : List Char) : (collapseNL 0 l).head? = l.head? := by
  rcases l with _ | ⟨c, cs⟩
  · rfl
  · by_cases hc : c = '\n'
    · subst hc; rw [collapseNL, if_pos rfl]; rfl
    · rw [collapseNL, if_neg hc]; rfl

/-- The space-collapse pass from non-space state keeps the first character. -/
theorem collapseSp_false_head (l : List Char) : (collapseSp false l).head? = l.head? := by
  rcases l with _ | ⟨c, cs⟩
  · rfl
  · by_cases hc : c = ' '
    · subst hc; rw [collapseSp, if_pos rfl]; rfl
    · rw [collapseSp, if_neg hc]; rfl

/-- The lone-newline pass never changes word-character status of the head. -/
theorem headNotWord_nlToSpace (q : Bool) (l : List Char) :
    headNotWord (nlToSpace q l) = headNotWord l := by
  rcases l with _ | ⟨c, cs⟩
  · rfl
  · by_cases hc : c = '\n'
    · subst hc
      rw [nlToSpace, if_pos rfl]
      by_cases h2 : ¬q = true ∧ cs.head? ≠ some '\n'
      · rw [if_pos h2, headNotWord, headNotWord]
        decide
      · rw [if_neg h2]
        rfl
    · rw [nlToSpace, if_neg hc]
      rfl

/-- Splitting an `occFree` scan: the suffix is scanned from the state left
by the prefix. -/
theorem occFree_suffix (w0 : Char) (wr : List Char) :
    ∀ (u : List Char) (q : Bool) (X : List Char), occFree w0 wr q (u ++ X) = true →
      occFree w0 wr (u.getLast?.elim q (fun e => isWordChar e)) X = true := by
  intro u
  induction u with
  | nil => intro q X h; simpa using h
  | cons c u2 ih =>
    intro q X h
    rw [List.cons_append] at h
    obtain ⟨-, h2⟩ := occFree_cons_iff.mp h
    have h3 := ih (isWordChar c) X h2
    rcases u2 with _ | ⟨d, u3⟩
    · simpa using h3
    · simpa [List.getLast?_cons_cons] using h3

/-- Prepending word characters to a scan in previous-word state cannot
create an occurrence. -/
theorem occFree_words_intro (w0 : Char) (wr : List Char) :
    ∀ (u : List Char), (∀ c ∈ u, isWordChar c = true) →
      ∀ (X : List Char), occFree w0 wr true X = true →
        occFree w0 wr true (u ++ X) = true := by
  intro u
  induction u with
  | nil => intro _ X h; exact h
  | cons c u2 ih =>
    intro hw X h
    rw [List.cons_append]
    refine occFree_cons_iff.mpr ⟨?_, ?_⟩
    · rintro ⟨-, hp, -, -⟩
      exact absurd hp (by simp)
    · rw [hw c (by simp)]
      exact ih (fun e he => hw e (List.mem_cons_of_mem _ he)) X h

/-- A whole-word occurrence survives the lone-newline pass backwards: if the
output is occurrence-free, so was the input. -/
theorem occFree_nlToSpace_rev (a0 : Char) (ar : List Char) (ha0 : isWordChar a0 = true)
    (har : ∀ c ∈ ar, isWordChar c = true) (harn : ar ≠ []) :
    ∀ (l : List Char) (q p : Bool),
      occFree a0 ar p (nlToSpace q l) = true → occFree a0 ar p l = true := by
  intro l
  induction l with
  | nil => intro q p h; exact h
  | cons c cs ih =>
    intro q p h
    by_cases hc : c = '\n'
    · subst hc
      rw [nlToSpace, if_pos rfl] at h
      have hfree : occFree a0 ar false (nlToSpace true cs) = true := by
        by_cases h2c : ¬q = true ∧ cs.head? ≠ some '\n'
        · rw [if_pos h2c] at h
          exact (occFree_cons_iff.mp h).2
        · rw [if_neg h2c] at h
          exact (occFree_cons_iff.mp h).2
      refine occFree_cons_iff.mpr ⟨?_, ?_⟩
      · rintro ⟨hca, -, -, -⟩
        exact wordChar_ne_nl ha0 hca.symm
      · exact ih true _ hfree
    · rw [nlToSpace, if_neg hc] at h
      obtain ⟨h1, h2⟩ := occFree_cons_iff.mp h
      refine occFree_cons_iff.mpr ⟨?_, ih false _ h2⟩
      rintro ⟨hca, hp, hpre, hlast⟩
      have hdec := List.prefix_iff_eq_append.mp (List.isPrefixOf_iff_prefix.mp hpre)
      have hsplit : nlToSpace false cs =
          ar ++ nlToSpace false (cs.drop ar.length) := by
        conv_lhs => rw [← hdec]
        rw [nlToSpace_words ar (by simp [harn]) (fun e he => wordChar_ne_nl (har e he)) false _]
      refine h1 ⟨hca, hp, ?_, ?_⟩
      · exact List.isPrefixOf_iff_prefix.mpr ⟨_, hsplit.symm⟩
      · rw [hsplit, List.drop_left, headNotWord_nlToSpace]
        exact hlast

/-- A whole-word occurrence survives the newline-collapse pass backwards. -/
theorem occFree_collapseNL_rev (a0 : Char) (ar : List Char) (ha0 : isWordChar a0 = true)
    (har : ∀ c ∈ ar, isWordChar c = true) (harn : ar ≠ []) :
    ∀ (l : List Char) (k : Nat) (p : Bool), (k ≠ 0 → p = false) →
      occFree a0 ar p (collapseNL k l) = true → occFree a0 ar p l = true := by
  intro l
  induction l with
  | nil => intro k p _ h; rfl
  | cons c cs ih =>
    intro k p hkp h
    by_cases hc : c = '\n'
    · subst hc
      rw [collapseNL, if_pos rfl] at h
      by_cases hk : k < 2
      · rw [if_pos hk, List.singleton_append] at h
        obtain ⟨-, h2⟩ := occFree_cons_iff.mp h
        refine occFree_cons_iff.mpr ⟨?_, ?_⟩
        · rintro ⟨hca, -, -, -⟩
          exact wordChar_ne_nl ha0 hca.symm
        · exact ih (k + 1) _ (fun _ => rfl) h2
      · rw [if_neg hk, List.nil_append] at h
        have hp : p = false := hkp (by omega)
        subst hp
        refine occFree_cons_iff.mpr ⟨?_, ?_⟩
        · rintro ⟨hca, -, -, -⟩
          exact wordChar_ne_nl ha0 hca.symm
        · exact ih (k + 1) _ (fun _ => rfl) h
    · rw [collapseNL, if_neg hc] at h
      obtain ⟨h1, h2⟩ := occFree_cons_iff.mp h
      refine occFree_cons_iff.mpr ⟨?_, ih 0 _ (by simp) h2⟩
      rintro ⟨hca, hp, hpre, hlast⟩
      have hdec := List.prefix_iff_eq_append.mp (List.isPrefixOf_iff_prefix.mp hpre)
      have hsplit : collapseNL 0 cs = ar ++ collapseNL 0 (cs.drop ar.length) := by
        conv_lhs => rw [← hdec]
        rw [collapseNL_words ar (by simp [harn]) (fun e he => wordChar_ne_nl (har e he)) 0 _]
      refine h1 ⟨hca, hp, ?_, ?_⟩
      · exact List.isPrefixOf_iff_prefix.mpr ⟨_, hsplit.symm⟩
      · rw [hsplit, List.drop_left, headNotWord_congr (collapseNL_zero_head _)]
        exact hlast

/-- A whole-word occurrence survives the space-collapse pass backwards. -/
theorem occFree_collapseSp_rev (a0 : Char) (ar : List Char) (ha0 : isWordChar a0 = true)
    (har : ∀ c ∈ ar, isWordChar c = true) (harn : ar ≠ []) :
    ∀ (l : List Char) (q p : Bool), (q = true → p = false) →
      occFree a0 ar p (collapseSp q l) = true → occFree a0 ar p l = true := by
  intro l
  induction l with
  | nil => intro q p _ h; rfl
  | cons c cs ih =>
    intro q p hqp h
    by_cases hc : c = ' '
    · subst hc
      rw [collapseSp, if_pos rfl] at h
      by_cases hq : q = true
      · rw [if_pos hq, List.nil_append] at h
        have hp : p = false := hqp hq
        subst hp
        refine occFree_cons_iff.mpr ⟨?_, ?_⟩
        · rintro ⟨hca, -, -, -⟩
          exact wordChar_ne_sp ha0 hca.symm
        · exact ih true _ (fun _ => rfl) h
      · rw [if_neg hq, List.singleton_append] at h
        obtain ⟨-, h2⟩ := occFree_cons_iff.mp h
        refine occFree_cons_iff.mpr ⟨?_, ?_⟩
        · rintro ⟨hca, -, -, -⟩
          exact wordChar_ne_sp ha0 hca.symm
        · exact ih true _ (fun _ => rfl) h2
    · rw [collapseSp, if_neg hc] at h
      obtain ⟨h1, h2⟩ := occFree_cons_iff.mp h
      refine occFree_cons_iff.mpr ⟨?_, ih false _ (by simp) h2⟩
      rintro ⟨hca, hp, hpre, hlast⟩
      have hdec := List.prefix_iff_eq_append.mp (List.isPrefixOf_iff_prefix.mp hpre)
      have hsplit : collapseSp false cs = ar ++ collapseSp false (cs.drop ar.length) := by
        conv_lhs => rw [← hdec]
        rw [collapseSp_words ar (by simp [harn]) (fun e he => wordChar_ne_sp (har e he)) false _]
      refine h1 ⟨hca, hp, ?_, ?_⟩
      · exact List.isPrefixOf_iff_prefix.mpr ⟨_, hsplit.symm⟩
      · rw [hsplit, List.drop_left, headNotWord_congr (collapseSp_false_head _)]
        exact hlast

/-- Two word-character prefixes of the same list that both end at a word
boundary are equal. -/
theorem word_prefix_eq_aux (ar br cs : List Char) (hbrw : ∀ c ∈ br, isWordChar c = true)
    (h1 : ar <+: cs) (h2 : br <+: cs) (hlen : ar.length ≤ br.length)
    (hbound : headNotWord (cs.drop ar.length) = true) : ar = br := by
  have hab : ar <+: br := List.prefix_of_prefix_length_le h1 h2 hlen
  rcases Nat.lt_or_ge ar.length br.length with hlt | hge
  · exfalso
    obtain ⟨z, hz⟩ := h2
    rcases hd : br.drop ar.length with _ | ⟨d, ds⟩
    · have := congrArg List.length hd
      simp only [List.length_drop, List.length_nil] at this
      omega
    · have hdw : isWordChar d = true :=
        hbrw d (List.drop_subset _ _ (by rw [hd]; exact List.mem_cons_self d ds))
      have hcs : cs.drop ar.length = d :: (ds ++ z) := by
        rw [← hz, List.drop_append_of_le_length hlen, hd, List.cons_append]
      rw [hcs, headNotWord] at hbound
      simp [hdw] at hbound
  · exact hab.eq_of_length (le_antisymm hlen hge)

/-- Whole-word matches of word-character patterns starting at the same
position coincide. -/
theorem word_prefix_unique (ar br cs : List Char) (harw : ∀ c ∈ ar, isWordChar c = true)
    (hbrw : ∀ c ∈ br, isWordChar c = true) (h1 : ar <+: cs) (h2 : br <+: cs)
    (hb1 : headNotWord (cs.drop ar.length) = true)
    (hb2 : headNotWord (cs.drop br.length) = true) : ar = br := by
  rcases Nat.le_total ar.length br.length with h | h
  · exact word_prefix_eq_aux ar br cs hbrw h1 h2 h hb1
  · exact (word_prefix_eq_aux br ar cs harw h2 h1 h hb2).symm

/-- A whole-word occurrence of a pattern distinct from the substituted word
survives the substitution backwards: if the output is free of it, so was
the input. -/
theorem occFree_replaceWord_rev (a0 b0 : Char) (ar br R : List Char)
    (ha0 : isWordChar a0 = true) (har : ∀ c ∈ ar, isWordChar c = true)
    (hb0 : isWordChar b0 = true) (hbr : ∀ c ∈ br, isWordChar c = true)
    (hne : a0 :: ar ≠ b0 :: br)
    (hR : ∃ R2 rl, R = R2 ++ [rl] ∧ isWordChar rl = true) :
    ∀ (p : Bool) (l : List Char),
      occFree a0 ar p (replaceWord b0 br R p l) = true → occFree a0 ar p l = true := by
  intro p l
  induction p, l using replaceWord.induct b0 br R with
  | case1 p => intro _; rfl
  | case2 p c cs hfire ih =>
    intro h
    rw [replaceWord_cons_fire hfire] at h
    obtain ⟨hc, hp, hpre, hhead⟩ := hfire
    obtain ⟨R2, rl, hReq, hrlw⟩ := hR
    have hstate : R.getLast?.elim p (fun e => isWordChar e) = true := by
      rw [hReq, List.getLast?_concat]
      simpa using hrlw
    have hs := occFree_suffix a0 ar R p _ h
    rw [hstate] at hs
    have hrest : occFree a0 ar true (cs.drop br.length) = true := ih hs
    have hdec := List.prefix_iff_eq_append.mp (List.isPrefixOf_iff_prefix.mp hpre)
    refine occFree_cons_iff.mpr ⟨?_, ?_⟩
    · rintro ⟨hca, -, hpra, hlasta⟩
      refine hne ?_
      have heq : ar = br :=
        word_prefix_unique ar br cs har hbr (List.isPrefixOf_iff_prefix.mp hpra)
          (List.isPrefixOf_iff_prefix.mp hpre) hlasta hhead
      rw [heq, ← hca, hc]
    · have hcw : isWordChar c = true := by rw [hc]; exact hb0
      rw [hcw, ← hdec]
      exact occFree_words_intro a0 ar br hbr _ hrest
  | case3 p c cs hfire ih =>
    intro h
    rw [replaceWord_cons_nofire hfire] at h
    obtain ⟨h1, h2⟩ := occFree_cons_iff.mp h
    refine occFree_cons_iff.mpr ⟨?_, ih h2⟩
    rintro ⟨hca, hpa, hpra, hlasta⟩
    have hcw : isWordChar c = true := by rw [hca]; exact ha0
    have hdec := List.prefix_iff_eq_append.mp (List.isPrefixOf_iff_prefix.mp hpra)
    have hsplit : replaceWord b0 br R (isWordChar c) cs =
        ar ++ replaceWord b0 br R true (cs.drop ar.length) := by
      rw [hcw]
      conv_lhs => rw [← hdec]
      exact replaceWord_true_words b0 br R ar har _
    refine h1 ⟨hca, hpa, ?_, ?_⟩
    · exact List.isPrefixOf_iff_prefix.mpr ⟨_, hsplit.symm⟩
    · rw [hsplit, List.drop_left, headNotWord_congr (replaceWord_true_head b0 br R _)]
      exact hlasta

/-- A list of whitespace characters is free of word-character patterns. -/
theorem occFree_spaces (a0 : Char) (ar : List Char) (ha0 : isWordChar a0 = true) :
    ∀ (s : List Char) (p : Bool), (∀ c ∈ s, isSpaceChar c = true) →
      occFree a0 ar p s = true := by
  intro s
  induction s with
  | nil => intro p _; rfl
  | cons c cs ih =>
    intro p hs
    refine occFree_cons_iff.mpr ⟨?_, ih _ (fun e he => hs e (List.mem_cons_of_mem _ he))⟩
    rintro ⟨hca, -, -, -⟩
    rw [hca] at hs
    exact absurd ha0 (by simp [space_not_word (hs a0 (by simp))])

/-- A whole-word occurrence survives the removal of leading whitespace
backwards. -/
theorem occFree_dropWhile_rev (a0 : Char) (ar : List Char) (ha0 : isWordChar a0 = true) :
    ∀ (l : List Char), occFree a0 ar false (l.dropWhile isSpaceChar) = true →
      occFree a0 ar false l = true := by
  intro l
  induction l with
  | nil => intro h; exact h
  | cons c cs ih =>
    intro h
    by_cases hc : isSpaceChar c = true
    · rw [List.dropWhile_cons_of_pos hc] at h
      refine occFree_cons_iff.mpr ⟨?_, ?_⟩
      · rintro ⟨hca, -, -, -⟩
        rw [hca] at hc
        exact absurd ha0 (by simp [space_not_word hc])
      · rw [space_not_word hc]
        exact ih h
    · rw [List.dropWhile_cons_of_neg (by simpa using hc)] at h
      exact h

/-- Appending trailing whitespace preserves freedom from whole-word
occurrences of a word-character pattern. -/
theorem occFree_extend_ws (a0 : Char) (ar : List Char) (ha0 : isWordChar a0 = true)
    (har : ∀ c ∈ ar, isWordChar c = true) (s : List Char)
    (hs : ∀ c ∈ s, isSpaceChar c = true) :
    ∀ (a : List Char) (p : Bool), occFree a0 ar p a = true →
      occFree a0 ar p (a ++ s) = true := by
  intro a
  induction a with
  | nil => intro p _; exact occFree_spaces a0 ar ha0 s p hs
  | cons c as ih =>
    intro p h
    obtain ⟨h1, h2⟩ := occFree_cons_iff.mp h
    rw [List.cons_append]
    refine occFree_cons_iff.mpr ⟨?_, ih _ h2⟩
    rintro ⟨hca, hpa, hpre', hlast'⟩
    have hpre2 : ar <+: as := by
      by_cases hlen : ar.length ≤ as.length
      · have ht := List.prefix_iff_eq_take.mp (List.isPrefixOf_iff_prefix.mp hpre')
        rw [List.take_append_of_le_length hlen] at ht
        rw [ht]
        exact List.take_prefix _ _
      · exfalso
        have hasar : as <+: ar := by
          refine List.prefix_of_prefix_length_le (List.prefix_append as s)
            (List.isPrefixOf_iff_prefix.mp hpre') ?_
          omega
        obtain ⟨t, htt⟩ := hasar
        rcases t with _ | ⟨d, ds⟩
        · have := congrArg List.length htt
          simp at this
          omega
        · have hd : isWordChar d = true := har d (by rw [← htt]; simp)
          have hts : (d :: ds) <+: s := by
            rw [← List.prefix_append_right_inj as, htt]
            exact List.isPrefixOf_iff_prefix.mp hpre'
          obtain ⟨z, hz⟩ := hts
          have hds : isSpaceChar d = true := hs d (by rw [← hz]; simp)
          exact absurd hd (by simp [space_not_word hds])
    refine h1 ⟨hca, hpa, List.isPrefixOf_iff_prefix.mpr hpre2, ?_⟩
    have hlen : ar.length ≤ as.length := hpre2.length_le
    rw [List.drop_append_of_le_length hlen] at hlast'
    rcases hd : as.drop ar.length with _ | ⟨d, ds⟩
    · rfl
    · rw [hd, List.cons_append] at hlast'
      exact hlast'

/-- A whole-word occurrence survives the removal of trailing whitespace
backwards. -/
theorem occFree_rstrip_rev (a0 : Char) (ar : List Char) (ha0 : isWordChar a0 = true)
    (har : ∀ c ∈ ar, isWordChar c = true) (l : List Char) (p : Bool)
    (h : occFree a0 ar p (rstrip l) = true) : occFree a0 ar p l = true := by
  rcases rstrip_decomp l with ⟨s, hls, hsp⟩
  rw [hls]
  exact occFree_extend_ws a0 ar ha0 har s hsp _ p h

/-- A word flanked by word boundaries is detected by the `occFree`
automaton. -/
theorem occFree_occurrence (w0 : Char) (wr : List Char) :
    ∀ (a : List Char) (q : Bool) (b : List Char),
      a.getLast?.elim q (fun e => isWordChar e) = false →
      headNotWord b = true →
      occFree w0 wr q (a ++ w0 :: (wr ++ b)) = false := by
  intro a
  induction a with
  | nil =>
    intro q b hst hb
    simp only [Option.elim] at hst
    rw [List.nil_append, occFree]
    have hF : decide (w0 = w0 ∧ q = false ∧ wr.isPrefixOf (wr ++ b) = true ∧
        headNotWord ((wr ++ b).drop wr.length) = true) = true := by
      refine decide_eq_true ⟨rfl, hst, ?_, ?_⟩
      · exact List.isPrefixOf_iff_prefix.mpr (List.prefix_append wr b)
      · rw [List.drop_left]
        exact hb
    rw [hF]
    rfl
  | cons c a2 ih =>
    intro q b hst hb
    have hst2 : a2.getLast?.elim (isWordChar c) (fun e => isWordChar e) = false := by
      rcases a2 with _ | ⟨d, a3⟩
      · simpa using hst
      · simpa [List.getLast?_cons_cons] using hst
    rw [List.cons_append, occFree, ih (isWordChar c) b hst2 hb, Bool.and_false]

/-- A failed `occFree` scan exhibits the word as an infix. -/
theorem infix_of_occFree_false (w0 : Char) (wr : List Char) :
    ∀ (l : List Char) (p : Bool), occFree w0 wr p l = false → (w0 :: wr) <:+: l := by
  intro l
  induction l with
  | nil => intro p h; exact absurd h (by simp [occFree])
  | cons c cs ih =>
    intro p h
    rw [occFree, Bool.and_eq_false_iff] at h
    rcases h with h | h
    · simp only [Bool.not_eq_false', decide_eq_true_eq] at h
      obtain ⟨rfl, -, hpre, -⟩ := h
      refine List.infix_cons_iff.mpr (Or.inl ?_)
      rw [List.cons_prefix_cons]
      exact ⟨rfl, List.isPrefixOf_iff_prefix.mp hpre⟩
    · exact List.infix_cons_iff.mpr (Or.inr (ih _ h))

/-- Whitespace characters are not the dash. -/
theorem space_ne_dash {c : Char} (h : isSpaceChar c = true) : c ≠ '-' := by
  rw [isSpaceChar] at h
  simp only [Bool.or_eq_true, decide_eq_true_eq] at h
  rcases h with ((((h | h) | h) | h) | h) | h <;> subst h <;> decide

/-- Word characters are not the dash. -/
theorem wordChar_ne_dash {c : Char} (h : isWordChar c = true) : c ≠ '-' := by
  intro h0
  subst h0
  simp [isWordChar] at h

/-- The lone-newline pass never creates a `"-\n"` pair. -/
theorem dashFree_nlToSpace : ∀ (l : List Char) (q p : Bool),
    dashFree p l = true → dashFree p (nlToSpace q l) = true := by
  intro l
  induction l with
  | nil => intro q p h; exact h
  | cons c cs ih =>
    intro q p h
    rw [dashFree] at h
    simp only [Bool.and_eq_true] at h
    by_cases hc : c = '\n'
    · subst hc
      rw [nlToSpace, if_pos rfl]
      by_cases h2c : ¬q = true ∧ cs.head? ≠ some '\n'
      · rw [if_pos h2c, dashFree]
        simp only [Bool.and_eq_true]
        exact ⟨by simp, ih true _ h.2⟩
      · rw [if_neg h2c, dashFree]
        simp only [Bool.and_eq_true]
        exact ⟨h.1, ih true _ h.2⟩
    · rw [nlToSpace, if_neg hc, dashFree]
      simp only [Bool.and_eq_true]
      exact ⟨h.1, ih false _ h.2⟩

/-- The newline-collapse pass never creates a `"-\n"` pair. -/
theorem dashFree_collapseNL : ∀ (l : List Char) (k : Nat) (p : Bool),
    dashFree p l = true → dashFree p (collapseNL k l) = true := by
  intro l
  induction l with
  | nil => intro k p h; exact h
  | cons c cs ih =>
    intro k p h
    rw [dashFree] at h
    simp only [Bool.and_eq_true] at h
    by_cases hc : c = '\n'
    · subst hc
      have hp : p = false := by
        have h1 := h.1
        simp only [Bool.not_eq_true', Bool.and_eq_false_iff, decide_eq_false_iff_not] at h1
        rcases h1 with h1 | h1
        · exact h1
        · exact absurd trivial h1
      subst hp
      rw [collapseNL, if_pos rfl]
      by_cases hk : k < 2
      · rw [if_pos hk, List.singleton_append, dashFree]
        simp only [Bool.and_eq_true]
        exact ⟨by simp, ih (k + 1) _ h.2⟩
      · rw [if_neg hk, List.nil_append]
        exact ih (k + 1) _ h.2
    · rw [collapseNL, if_neg hc, dashFree]
      simp only [Bool.and_eq_true]
      exact ⟨h.1, ih 0 _ h.2⟩

/-- The space-collapse pass never creates a `"-\n"` pair. -/
theorem dashFree_collapseSp : ∀ (l : List Char) (q p : Bool), (q = true → p = false) →
    dashFree p l = true → dashFree p (collapseSp q l) = true := by
  intro l
  induction l with
  | nil => intro q p _ h; exact h
  | cons c cs ih =>
    intro q p hqp h
    rw [dashFree] at h
    simp only [Bool.and_eq_true] at h
    by_cases hc : c = ' '
    · subst hc
      rw [collapseSp, if_pos rfl]
      by_cases hq : q = true
      · rw [if_pos hq, List.nil_append]
        rw [hqp hq]
        exact ih true _ (fun _ => rfl) h.2
      · rw [if_neg hq, List.singleton_append, dashFree]
        simp only [Bool.and_eq_true]
        exact ⟨by simp, ih true _ (fun _ => rfl) h.2⟩
    · rw [collapseSp, if_neg hc, dashFree]
      simp only [Bool.and_eq_true]
      exact ⟨h.1, ih false _ (by simp) h.2⟩

/-- Threading `dashFree` over a block free of newlines and dashes. -/
theorem dashFree_step_nodash : ∀ (u : List Char), (∀ c ∈ u, c ≠ '\n' ∧ c ≠ '-') →
    ∀ (X : List Char), dashFree false (u ++ X) = true → dashFree false X = true := by
  intro u
  induction u with
  | nil => intro _ X h; exact h
  | cons c u2 ih =>
    intro hw X h
    rw [List.cons_append, dashFree] at h
    simp only [Bool.and_eq_true] at h
    have h2 := h.2
    rw [decide_eq_false (hw c (by simp)).2] at h2
    exact ih (fun e he => hw e (List.mem_cons_of_mem _ he)) X h2

/-- The whole-word substitution never creates a `"-\n"` pair when neither
the pattern nor the replacement involves newlines or dashes dangerously
(`hstepD`: scanning the replacement from any dash state stays clean). -/
theorem dashFree_replaceWord (w0 : Char) (wr repl : List Char)
    (hw0d : w0 ≠ '-') (hwr : ∀ c ∈ wr, c ≠ '\n' ∧ c ≠ '-')
    (hstepD : ∀ (q : Bool) (X : List Char), dashFree false X = true →
      dashFree q (repl ++ X) = true) :
    ∀ (p : Bool) (l : List Char) (q : Bool),
      dashFree q l = true → dashFree q (replaceWord w0 wr repl p l) = true := by
  intro p l
  induction p, l using replaceWord.induct w0 wr repl with
  | case1 p => intro q h; rw [replaceWord_nil]; exact h
  | case2 p c cs hfire ih =>
    intro q h
    rw [replaceWord_cons_fire hfire]
    obtain ⟨hc, -, hpre, -⟩ := hfire
    rw [dashFree] at h
    simp only [Bool.and_eq_true] at h
    have h2 := h.2
    rw [hc, decide_eq_false hw0d] at h2
    have hdec := List.prefix_iff_eq_append.mp (List.isPrefixOf_iff_prefix.mp hpre)
    rw [← hdec] at h2
    exact hstepD q _ (ih false (dashFree_step_nodash wr hwr _ h2))
  | case3 p c cs hfire ih =>
    intro q h
    rw [replaceWord_cons_nofire hfire]
    rw [dashFree] at h ⊢
    simp only [Bool.and_eq_true] at h ⊢
    exact ⟨h.1, ih _ h.2⟩

/-- Scanning the replacement "AI" creates no `"-\n"` pair. -/
theorem dashFreeStepAI (q : Bool) (X : List Char) (h : dashFree false X = true) :
    dashFree q ('A' :: 'I' :: X) = true := by
  simp [dashFree, h]

/-- Scanning the replacement "OpenAI" creates no `"-\n"` pair. -/
theorem dashFreeStepOpenAI (q : Bool) (X : List Char) (h : dashFree false X = true) :
    dashFree q ("OpenAI".data ++ X) = true := by
  simp [dashFree, h]

/-- Dropping leading whitespace never creates a `"-\n"` pair. -/
theorem dashFree_dropWhile (l : List Char) (h : dashFree false l = true) :
    dashFree false (l.dropWhile isSpaceChar) = true := by
  induction l with
  | nil => exact h
  | cons c cs ih =>
    by_cases hc : isSpaceChar c = true
    · rw [List.dropWhile_cons_of_pos hc]
      rw [dashFree] at h
      simp only [Bool.and_eq_true] at h
      have h2 := h.2
      rw [decide_eq_false (space_ne_dash hc)] at h2
      exact ih h2
    · rw [List.dropWhile_cons_of_neg (by simpa using hc)]
      exact h

/-- `dashFree` restricts to prefixes. -/
theorem dashFree_prefix : ∀ (a s : List Char) (p : Bool),
    dashFree p (a ++ s) = true → dashFree p a = true := by
  intro a
  induction a with
  | nil => intro s p _; rfl
  | cons c a2 ih =>
    intro s p h
    rw [List.cons_append, dashFree] at h
    rw [dashFree]
    simp only [Bool.and_eq_true] at h ⊢
    exact ⟨h.1, ih s _ h.2⟩

/-- Stripping trailing whitespace never creates a `"-\n"` pair. -/
theorem dashFree_rstrip (l : List Char) (p : Bool) (h : dashFree p l = true) :
    dashFree p (rstrip l) = true := by
  rcases rstrip_decomp l with ⟨s, hls, -⟩
  rw [hls] at h
  exact dashFree_prefix _ s p h

/-- Counterexample for C6 as stated: the input `"A-\nl"` contains the
occurrence `"X-\nY"` with word runs `X = "A"`, `Y = "l"`, but
`clean_pdf_text` returns `"AI"` — the hyphen join first produces the merged
word `"Al"`, which the OCR fix `\bAl\b → AI` then rewrites, so the output
does not contain the merged word `"XY" = "Al"`. -/
theorem c6_counterexample :
    clean_pdf_text ('A' :: '-' :: '\n' :: ['l']) = 'A' :: ['I']
      ∧ ¬ (('A' :: ['l']) <:+: clean_pdf_text ('A' :: '-' :: '\n' :: ['l'])) := by
  have h : clean_pdf_text ('A' :: '-' :: '\n' :: ['l']) = 'A' :: ['I'] := by
    have h0 : hyphenJoin .non ('A' :: '-' :: '\n' :: ['l']) = 'A' :: ['l'] := by
      rw [hyphenJoin_cons_word (by decide)]
      show 'A' :: hyphenJoin .avail ('-' :: '\n' :: 'l' :: []) = _
      rw [hyphenJoin_dash_word (by decide), hyphenJoin_nil]
    rw [clean_pdf_text, h0]
    rw [show nlToSpace false ('A' :: ['l']) = 'A' :: ['l'] from by decide]
    rw [show collapseNL 0 ('A' :: ['l']) = 'A' :: ['l'] from by decide]
    rw [show collapseSp false ('A' :: ['l']) = 'A' :: ['l'] from by decide]
    rw [show fixAl ('A' :: ['l']) = 'A' :: ['I'] from by
      rw [fixAl, replaceWord_cons_fire (by decide)]
      show ('A' :: ['I']) ++ replaceWord 'A' ['l'] ('A' :: ['I']) true [] = 'A' :: ['I']
      rw [replaceWord_nil]
      rfl]
    rw [show fixOpenAl ('A' :: ['I']) = 'A' :: ['I'] from
      replaceWord_id 'O' "penAl".data "OpenAI".data false _ (by decide)]
    rw [show fixEl ('A' :: ['I']) = 'A' :: ['I'] from
      replaceWord_id 'E' ['l'] ('A' :: ['I']) false _ (by decide)]
    rw [show stripWS ('A' :: ['I']) = 'A' :: ['I'] from by decide]
  refine ⟨h, ?_⟩
  rw [h]
  decide

/-- Claim C6 (amended): for a text containing the occurrence `"X-\nY"`
with `X` and `Y` maximal nonempty word-character runs (the character
before `X`, if any, and the character after `Y`, if any, are non-word),
no other `"-\n"` pair anywhere, and the merged word `XY` not one of the
OCR-fix patterns `Al`, `OpenAl`, `El`, `clean_pdf_text` outputs a text
containing the merged word `XY` and no residual hyphen followed by a
newline.  (Without these provisos the claim fails: the fixes can rewrite
the merged word — see `c6_counterexample` — and a second `"-\n"` not
followed by a word character survives to the output.) -/
theorem c6_hyphen_join (u v X2 Y : List Char) (x0 : Char)
    (hXw : ∀ c ∈ x0 :: X2, isWordChar c = true)
    (hY : Y ≠ []) (hYw : ∀ c ∈ Y, isWordChar c = true)
    (hu : ¬ (('-' :: ['\n']) <:+: (u ++ (x0 :: X2))))
    (hv : ¬ (('-' :: ['\n']) <:+: (Y ++ v)))
    (hub : lastNotWord u = true) (hvb : headNotWord v = true)
    (hne1 : (x0 :: X2) ++ Y ≠ 'A' :: ['l'])
    (hne2 : (x0 :: X2) ++ Y ≠ "OpenAl".data)
    (hne3 : (x0 :: X2) ++ Y ≠ 'E' :: ['l']) :
    ((x0 :: X2) ++ Y) <:+:
        clean_pdf_text ((u ++ (x0 :: X2)) ++ '-' :: '\n' :: (Y ++ v))
      ∧ ¬ (('-' :: ['\n']) <:+:
        clean_pdf_text ((u ++ (x0 :: X2)) ++ '-' :: '\n' :: (Y ++ v))) := by
  have hW0 : isWordChar x0 = true := hXw x0 (by simp)
  have hWr : ∀ c ∈ X2 ++ Y, isWordChar c = true := by
    intro c hc
    rcases List.mem_append.mp hc with hc | hc
    · exact hXw c (List.mem_cons_of_mem _ hc)
    · exact hYw c hc
  have hWrn : X2 ++ Y ≠ [] := by simp [hY]
  have hdfu : dashFree false (u ++ (x0 :: X2)) = true :=
    (dashFree_iff _ _).mpr ⟨by simp, hu⟩
  have hdfv : dashFree false (Y ++ v) = true :=
    (dashFree_iff _ _).mpr ⟨by simp, hv⟩
  have ht1 : hyphenJoin .non ((u ++ (x0 :: X2)) ++ '-' :: '\n' :: (Y ++ v))
      = ((u ++ (x0 :: X2)) ++ Y) ++ v :=
    hyphenJoin_merge (x0 :: X2) Y (by simp) hXw hY hYw u .non (by simp) hdfu v hdfv
  have hocc1 : occFree x0 (X2 ++ Y) false (((u ++ (x0 :: X2)) ++ Y) ++ v) = false := by
    have hstate : u.getLast?.elim false (fun e => isWordChar e) = false := by
      rw [lastNotWord] at hub
      rcases hg : u.getLast? with _ | e
      · rfl
      · rw [hg] at hub
        simpa using hub
    have hmain := occFree_occurrence x0 (X2 ++ Y) u false v hstate hvb
    have heq : u ++ x0 :: ((X2 ++ Y) ++ v) = ((u ++ (x0 :: X2)) ++ Y) ++ v := by
      simp [List.append_assoc]
    rw [heq] at hmain
    exact hmain
  have hfin1 : occFree x0 (X2 ++ Y) false
      (clean_pdf_text ((u ++ (x0 :: X2)) ++ '-' :: '\n' :: (Y ++ v))) = false := by
    by_contra hcon
    rw [Bool.not_eq_false] at hcon
    rw [clean_pdf_text, ht1, stripWS] at hcon
    have s1 := occFree_rstrip_rev x0 _ hW0 hWr _ _ hcon
    have s2 := occFree_dropWhile_rev x0 _ hW0 _ s1
    have s3 := occFree_replaceWord_rev x0 'E' (X2 ++ Y) ['l'] ('A' :: ['I'])
      hW0 hWr (by decide) (by decide) (by simpa using hne3)
      ⟨['A'], 'I', rfl, by decide⟩ false _ s2
    have s4 := occFree_replaceWord_rev x0 'O' (X2 ++ Y) "penAl".data "OpenAI".data
      hW0 hWr (by decide) (by decide) (by simpa using hne2)
      ⟨"OpenA".data, 'I', by decide, by decide⟩ false _ s3
    have s5 := occFree_replaceWord_rev x0 'A' (X2 ++ Y) ['l'] ('A' :: ['I'])
      hW0 hWr (by decide) (by decide) (by simpa using hne1)
      ⟨['A'], 'I', rfl, by decide⟩ false _ s4
    have s6 := occFree_collapseSp_rev x0 (X2 ++ Y) hW0 hWr hWrn _ false false (by simp) s5
    have s7 := occFree_collapseNL_rev x0 (X2 ++ Y) hW0 hWr hWrn _ 0 false (by simp) s6
    have s8 := occFree_nlToSpace_rev x0 (X2 ++ Y) hW0 hWr hWrn _ false false s7
    exact Bool.false_ne_true (hocc1 ▸ s8)
  have hd1 : dashFree false (((u ++ (x0 :: X2)) ++ Y) ++ v) = true := by
    have hXne : (x0 :: X2) ≠ [] := by simp
    obtain ⟨e, he, hew⟩ : ∃ e, (x0 :: X2).getLast? = some e ∧ isWordChar e = true :=
      ⟨(x0 :: X2).getLast hXne, List.getLast?_eq_getLast _ hXne,
        hXw _ (List.getLast_mem hXne)⟩
    have hgl : (u ++ (x0 :: X2)).getLast? = some e := by
      rw [List.getLast?_append, he]
      rfl
    have hstate : (u ++ (x0 :: X2)).getLast?.elim false (fun e2 => decide (e2 = '-')) = false := by
      rw [hgl]
      simpa using wordChar_ne_dash hew
    have hglue := dashFree_append_state (u ++ (x0 :: X2)) false (Y ++ v) hdfu
      (by rw [hstate]; exact hdfv)
    have hassoc : ((u ++ (x0 :: X2)) ++ Y) ++ v = (u ++ (x0 :: X2)) ++ (Y ++ v) := by
      rw [List.append_assoc]
    rw [hassoc]
    exact hglue
  constructor
  · have hinf := infix_of_occFree_false x0 (X2 ++ Y) _ false hfin1
    simpa using hinf
  · have hd2 := dashFree_nlToSpace _ false false hd1
    have hd3 := dashFree_collapseNL _ 0 false hd2
    have hd4 := dashFree_collapseSp _ false false (by simp) hd3
    have hd5 := dashFree_replaceWord 'A' ['l'] ('A' :: ['I']) (by decide) (by decide)
      dashFreeStepAI false _ false hd4
    have hd6 := dashFree_replaceWord 'O' "penAl".data "OpenAI".data (by decide) (by decide)
      dashFreeStepOpenAI false _ false hd5
    have hd7 := dashFree_replaceWord 'E' ['l'] ('A' :: ['I']) (by decide) (by decide)
      dashFreeStepAI false _ false hd6
    have hd8 := dashFree_dropWhile _ hd7
    have hd9 := dashFree_rstrip _ false hd8
    have hdfull : dashFree false
        (clean_pdf_text ((u ++ (x0 :: X2)) ++ '-' :: '\n' :: (Y ++ v))) = true := by
      rw [clean_pdf_text, ht1]
      exact hd9
    exact ((dashFree_iff _ _).mp hdfull).2

/-- Witness for C6 (amended): in `"x Ab-\ncd y"` the runs `X = "Ab"` and
`Y = "cd"` merge, and the cleaned text contains `"Abcd"` and no `"-\n"`. -/
theorem c6_hyphen_join_witness :
    (('A' :: "b".data) ++ "cd".data) <:+:
        clean_pdf_text (("x ".data ++ ('A' :: "b".data)) ++ '-' :: '\n' :: ("cd".data ++ " y".data))
      ∧ ¬ (('-' :: ['\n']) <:+:
        clean_pdf_text (("x ".data ++ ('A' :: "b".data)) ++ '-' :: '\n' :: ("cd".data ++ " y".data))) :=
  c6_hyphen_join "x ".data " y".data "b".data "cd".data 'A' (by decide) (by decide)
    (by decide) (by decide) (by decide) (by decide) (by decide) (by decide) (by decide)
    (by decide)

/-- Three consecutive newlines violate the newline-pair invariant from any
counter state. -/
theorem nlPairs_triple (k : Nat) (rest : List Char) :
    nlPairs k ('\n' :: '\n' :: '\n' :: rest) = false := by
  rw [nlPairs, if_pos rfl, nlPairs, if_pos rfl, nlPairs, if_pos rfl]
  rw [show decide (k + 1 + 1 < 2) = false from by simp]
  simp

/-- Text satisfying the newline-pair invariant has no three consecutive
newlines. -/
theorem nlPairs_no_triple : ∀ (l : List Char) (k : Nat), nlPairs k l = true →
    ¬ (('\n' :: '\n' :: ['\n']) <:+: l) := by
  intro l
  induction l with
  | nil =>
    intro k _ h
    have := h.sublist.length_le
    simp at this
  | cons c cs ih =>
    intro k hk h
    rcases List.infix_cons_iff.mp h with hpre | hinf
    · obtain ⟨t, ht⟩ := hpre
      rw [← ht, List.cons_append, List.cons_append, List.cons_append, List.nil_append,
        nlPairs_triple] at hk
      exact Bool.false_ne_true hk
    · rw [nlPairs] at hk
      by_cases hc : c = '\n'
      · rw [if_pos hc, Bool.and_eq_true] at hk
        exact ih (k + 1) hk.2 hinf
      · rw [if_neg hc, Bool.and_eq_true] at hk
        exact ih 0 hk.2 hinf

/-- Every newline run in cleaned text has length exactly two. -/
theorem clean_nlPairs (raw_text : List Char) :
    nlPairs 0 (clean_pdf_text raw_text) = true := by
  rw [clean_pdf_text, stripWS]
  refine nlPairs_rstrip _ (nlPairs_dropWhile _ 0 ?_)
  refine nlPairs_replaceWord 'E' ['l'] ('A' :: ['I'])
    (by decide) (by decide) (by decide) (by decide) false _ 0 ?_
  refine nlPairs_replaceWord 'O' "penAl".data "OpenAI".data
    (by decide) (by decide) (by decide) (by decide) false _ 0 ?_
  refine nlPairs_replaceWord 'A' ['l'] ('A' :: ['I'])
    (by decide) (by decide) (by decide) (by decide) false _ 0 ?_
  refine nlPairs_collapseSp _ 0 false (by simp) ?_
  exact nlPairs_collapseNL (nlToSpace false (hyphenJoin .non raw_text)) 0
    (noLoneNL_nlToSpace (hyphenJoin .non raw_text) false) (by simp)

/-- Counterexample for C7 as stated: the input `"\n\n\n"` is a run of three
newlines, but `clean_pdf_text` returns the empty text — the run is first
collapsed to two newlines and then stripped away entirely, so the output
does not contain a two-newline replacement of the run. -/
theorem c7_counterexample :
    clean_pdf_text ('\n' :: '\n' :: ['\n']) = []
      ∧ ¬ (('\n' :: ['\n']) <:+: clean_pdf_text ('\n' :: '\n' :: ['\n'])) := by
  have h : clean_pdf_text ('\n' :: '\n' :: ['\n']) = [] := by
    have h0 : hyphenJoin .non ('\n' :: '\n' :: ['\n']) = '\n' :: '\n' :: ['\n'] := by
      rw [hyphenJoin_cons_other (by decide) (by simp), hyphenJoin_cons_other (by decide) (by simp),
        hyphenJoin_cons_other (by decide) (by simp), hyphenJoin_nil]
    rw [clean_pdf_text, h0]
    rw [show nlToSpace false ('\n' :: '\n' :: ['\n']) = '\n' :: '\n' :: ['\n'] from by decide]
    rw [show collapseNL 0 ('\n' :: '\n' :: ['\n']) = '\n' :: ['\n'] from by decide]
    rw [show collapseSp false ('\n' :: ['\n']) = '\n' :: ['\n'] from by decide]
    rw [show fixAl ('\n' :: ['\n']) = '\n' :: ['\n'] from
      replaceWord_id 'A' ['l'] ('A' :: ['I']) false _ (by decide)]
    rw [show fixOpenAl ('\n' :: ['\n']) = '\n' :: ['\n'] from
      replaceWord_id 'O' "penAl".data "OpenAI".data false _ (by decide)]
    rw [show fixEl ('\n' :: ['\n']) = '\n' :: ['\n'] from
      replaceWord_id 'E' ['l'] ('A' :: ['I']) false _ (by decide)]
    rw [show stripWS ('\n' :: ['\n']) = [] from by decide]
  refine ⟨h, ?_⟩
  rw [h]
  decide

/-- Unfolding `hasInk` at a cons cell. -/
theorem hasInk_cons (c : Char) (l : List Char) :
    hasInk (c :: l) = (!isSpaceChar c || hasInk l) := by
  rw [hasInk, hasInk, List.any_cons]

/-- `hasInk` distributes over append. -/
theorem hasInk_append (a b : List Char) : hasInk (a ++ b) = (hasInk a || hasInk b) := by
  rw [hasInk, hasInk, hasInk, List.any_append]

/-- Word characters are ink. -/
theorem wordChar_ink {c : Char} (h : isWordChar c = true) : isSpaceChar c = false := by
  by_cases hs : isSpaceChar c = true
  · exact absurd h (by simp [space_not_word hs])
  · simpa using hs

/-- The hyphen-join pass preserves the presence of ink: every branch emits
a non-whitespace character or passes one through. -/
theorem ink_hyphenJoin : ∀ (st : HJState) (l : List Char),
    hasInk l = true → hasInk (hyphenJoin st l) = true := by
  intro st l
  induction st, l using hyphenJoin.induct with
  | case1 st => intro h; rw [hyphenJoin_nil]; exact h
  | case2 st c cs hw ih =>
    intro _
    rw [hyphenJoin_cons_word hw, hasInk_cons]
    simp [wordChar_ink hw]
  | case3 st c hcw hca d cs2 hdw ih =>
    intro _
    rw [hca.1, hca.2, hyphenJoin_dash_word hdw, hasInk_cons]
    simp [wordChar_ink hdw]
  | case4 st c hcw hca d cs2 hdw ih =>
    intro _
    rw [hca.1, hca.2, hyphenJoin_dash_nonword (by simpa using hdw), hasInk_cons]
    simp [show isSpaceChar '-' = false from by decide]
  | case5 st c hcw hca l hnot ih =>
    intro _
    rw [hca.1, hca.2, hyphenJoin_dash_nomatch (fun d cs2 h => hnot d cs2 h), hasInk_cons]
    simp [show isSpaceChar '-' = false from by decide]
  | case6 st c cs hcw hno ih =>
    intro h
    rw [hyphenJoin_cons_other (by simpa using hcw) hno, hasInk_cons]
    rw [hasInk_cons] at h
    simp only [Bool.or_eq_true] at h ⊢
    rcases h with h | h
    · exact Or.inl h
    · exact Or.inr (ih h)

/-- The lone-newline pass preserves ink (it only turns newlines into
spaces). -/
theorem ink_nlToSpace : ∀ (l : List Char) (q : Bool),
    hasInk l = true → hasInk (nlToSpace q l) = true := by
  intro l
  induction l with
  | nil => intro q h; exact h
  | cons c cs ih =>
    intro q h
    rw [hasInk_cons] at h
    simp only [Bool.or_eq_true] at h
    by_cases hc : c = '\n'
    · subst hc
      rw [nlToSpace, if_pos rfl, hasInk_cons]
      simp only [Bool.or_eq_true]
      rcases h with h | h
      · exact absurd h (by decide)
      · exact Or.inr (ih true h)
    · rw [nlToSpace, if_neg hc, hasInk_cons]
      simp only [Bool.or_eq_true]
      rcases h with h | h
      · exact Or.inl h
      · exact Or.inr (ih false h)

/-- The newline-collapse pass preserves ink (it only drops newlines). -/
theorem ink_collapseNL : ∀ (l : List Char) (k : Nat),
    hasInk l = true → hasInk (collapseNL k l) = true := by
  intro l
  induction l with
  | nil => intro k h; exact h
  | cons c cs ih =>
    intro k h
    rw [hasInk_cons] at h
    simp only [Bool.or_eq_true] at h
    by_cases hc : c = '\n'
    · subst hc
      rw [collapseNL, if_pos rfl]
      have h2 : hasInk (collapseNL (k + 1) cs) = true := by
        rcases h with h | h
        · exact absurd h (by decide)
        · exact ih (k + 1) h
      rw [hasInk_append]
      simp [h2]
    · rw [collapseNL, if_neg hc, hasInk_cons]
      simp only [Bool.or_eq_true]
      rcases h with h | h
      · exact Or.inl h
      · exact Or.inr (ih 0 h)

/-- The space-collapse pass preserves ink (it only drops spaces). -/
theorem ink_collapseSp : ∀ (l : List Char) (q : Bool),
    hasInk l = true → hasInk (collapseSp q l) = true := by
  intro l
  induction l with
  | nil => intro q h; exact h
  | cons c cs ih =>
    intro q h
    rw [hasInk_cons] at h
    simp only [Bool.or_eq_true] at h
    by_cases hc : c = ' '
    · subst hc
      rw [collapseSp, if_pos rfl]
      have h2 : hasInk (collapseSp true cs) = true := by
        rcases h with h | h
        · exact absurd h (by decide)
        · exact ih true h
      rw [hasInk_append]
      simp [h2]
    · rw [collapseSp, if_neg hc, hasInk_cons]
      simp only [Bool.or_eq_true]
      rcases h with h | h
      · exact Or.inl h
      · exact Or.inr (ih false h)

/-- The whole-word substitution preserves ink when the replacement has
ink. -/
theorem ink_replaceWord (w0 : Char) (wr repl : List Char) (hri : hasInk repl = true) :
    ∀ (p : Bool) (l : List Char), hasInk l = true →
      hasInk (replaceWord w0 wr repl p l) = true := by
  intro p l
  induction p, l using replaceWord.induct w0 wr repl with
  | case1 p => intro h; rw [replaceWord_nil]; exact h
  | case2 p c cs hfire ih =>
    intro _
    rw [replaceWord_cons_fire hfire, hasInk_append]
    simp [hri]
  | case3 p c cs hfire ih =>
    intro h
    rw [replaceWord_cons_nofire hfire, hasInk_cons]
    rw [hasInk_cons] at h
    simp only [Bool.or_eq_true] at h ⊢
    rcases h with h | h
    · exact Or.inl h
    · exact Or.inr (ih h)

/-- Text with ink keeps a nonempty remainder after dropping leading
whitespace. -/
theorem dropWhile_ne_nil_of_ink (l : List Char) (h : hasInk l = true) :
    l.dropWhile isSpaceChar ≠ [] := by
  induction l with
  | nil => exact absurd h (by decide)
  | cons c cs ih =>
    rw [hasInk_cons] at h
    by_cases hc : isSpaceChar c = true
    · rw [List.dropWhile_cons_of_pos hc]
      refine ih ?_
      simp only [hc, Bool.not_true, Bool.false_or] at h
      exact h
    · rw [List.dropWhile_cons_of_neg (by simpa using hc)]
      simp

/-- Text with ink keeps a nonempty remainder after stripping trailing
whitespace. -/
theorem rstrip_ne_nil_of_ink (l : List Char) (h : hasInk l = true) : rstrip l ≠ [] := by
  intro hnil
  rcases rstrip_decomp l with ⟨s, hs, hsp⟩
  rw [hnil, List.nil_append] at hs
  rw [hs, hasInk] at h
  obtain ⟨c, hc, hcs⟩ := List.any_eq_true.mp h
  rw [hsp c hc] at hcs
  exact absurd hcs (by decide)

/-- Stripping trailing whitespace stays inside the suffix when that suffix
keeps a nonempty remainder. -/
theorem rstrip_append (b : List Char) (hb : rstrip b ≠ []) :
    ∀ (X : List Char), rstrip (X ++ b) = X ++ rstrip b := by
  intro X
  induction X with
  | nil => rfl
  | cons c X2 ih =>
    rw [List.cons_append, rstrip, ih]
    rw [if_neg (by simp [hb])]
    rfl

/-- The hyphen-join pass copies a leading newline triple and resets its
state. -/
theorem hyphenJoin_triple_base (st : HJState) (b : List Char) :
    hyphenJoin st ('\n' :: '\n' :: '\n' :: b) = '\n' :: '\n' :: '\n' :: hyphenJoin .non b := by
  rw [hyphenJoin_cons_other (by decide) (by simp), hyphenJoin_cons_other (by decide) (by simp),
    hyphenJoin_cons_other (by decide) (by simp)]

/-- One step of the hyphen-join scan at an available dash followed by an
arbitrary prefix and a newline triple: either the dash is emitted, or a
match consumes the dash, a newline and one word character of the prefix. -/
theorem hyphenJoin_dash_cases (a2 b : List Char) :
    hyphenJoin .avail ('-' :: (a2 ++ '\n' :: '\n' :: '\n' :: b))
        = '-' :: hyphenJoin .non (a2 ++ '\n' :: '\n' :: '\n' :: b)
      ∨ ∃ d a4, a2 = '\n' :: d :: a4 ∧ isWordChar d = true ∧
          hyphenJoin .avail ('-' :: (a2 ++ '\n' :: '\n' :: '\n' :: b))
            = d :: hyphenJoin .consumed (a4 ++ '\n' :: '\n' :: '\n' :: b) := by
  rcases a2 with _ | ⟨d1, a3⟩
  · exact Or.inl (hyphenJoin_dash_nonword (by decide) _)
  · by_cases hd1 : d1 = '\n'
    · subst hd1
      rcases a3 with _ | ⟨d2, a4⟩
      · exact Or.inl (hyphenJoin_dash_nonword (by decide) _)
      · rcases hw2 : isWordChar d2 with _ | _
        · exact Or.inl (hyphenJoin_dash_nonword hw2 _)
        · exact Or.inr ⟨d2, a4, rfl, hw2, hyphenJoin_dash_word hw2 _⟩
    · exact Or.inl (hyphenJoin_dash_nomatch (by
        intro d cs2 hEq
        rw [List.cons_append] at hEq
        exact hd1 (List.head_eq_of_cons_eq hEq)))

/-- The hyphen-join pass maps a text around a newline triple to a text
around the same triple, preserving ink on the left. -/
theorem hyphenJoin_triple_split : ∀ (n : Nat) (a : List Char), a.length ≤ n →
    ∀ (st : HJState) (b : List Char),
    ∃ a2, hyphenJoin st (a ++ '\n' :: '\n' :: '\n' :: b)
        = a2 ++ '\n' :: '\n' :: '\n' :: hyphenJoin .non b
      ∧ (hasInk a = true → hasInk a2 = true) := by
  intro n
  induction n with
  | zero =>
    intro a ha st b
    have ha0 : a = [] := List.length_eq_zero.mp (Nat.le_zero.mp ha)
    subst ha0
    exact ⟨[], by rw [List.nil_append, hyphenJoin_triple_base]; rfl, fun h => h⟩
  | succ n ih =>
    intro a ha st b
    rcases a with _ | ⟨c, a2⟩
    · exact ⟨[], by rw [List.nil_append, hyphenJoin_triple_base]; rfl, fun h => h⟩
    · rw [List.cons_append]
      rcases hw : isWordChar c with _ | _
      · by_cases hdash : c = '-' ∧ st = .avail
        · obtain ⟨rfl, rfl⟩ := hdash
          rcases hyphenJoin_dash_cases a2 b with hstep | ⟨d, a4, ha2, hdw, hstep⟩
          · rw [hstep]
            obtain ⟨a5, heq, hink⟩ := ih a2
              (by simp only [List.length_cons] at ha; omega) .non b
            refine ⟨'-' :: a5, by rw [heq]; rfl, ?_⟩
            intro _
            rw [hasInk_cons]
            simp [show isSpaceChar '-' = false from by decide]
          · rw [hstep]
            obtain ⟨a5, heq, hink⟩ := ih a4
              (by rw [ha2] at ha; simp only [List.length_cons] at ha; omega) .consumed b
            refine ⟨d :: a5, by rw [heq]; rfl, ?_⟩
            intro _
            rw [hasInk_cons]
            simp [wordChar_ink hdw]
        · rw [hyphenJoin_cons_other hw hdash]
          obtain ⟨a5, heq, hink⟩ := ih a2
            (by simp only [List.length_cons] at ha; omega) .non b
          refine ⟨c :: a5, by rw [heq]; rfl, ?_⟩
          intro h
          rw [hasInk_cons] at h ⊢
          simp only [Bool.or_eq_true] at h ⊢
          rcases h with h | h
          · exact Or.inl h
          · exact Or.inr (hink h)
      · rw [hyphenJoin_cons_word hw]
        obtain ⟨a5, heq, hink⟩ := ih a2
          (by simp only [List.length_cons] at ha; omega) st.step b
        refine ⟨c :: a5, by rw [heq]; rfl, ?_⟩
        intro _
        rw [hasInk_cons]
        simp [wordChar_ink hw]

/-- The lone-newline pass maps a text around a newline triple to a text
around the same triple (each newline of the triple keeps a newline
neighbour), preserving ink on the left. -/
theorem nlToSpace_triple_split : ∀ (a : List Char) (q : Bool) (b : List Char),
    ∃ a2, nlToSpace q (a ++ '\n' :: '\n' :: '\n' :: b)
        = a2 ++ '\n' :: '\n' :: '\n' :: nlToSpace true b
      ∧ (hasInk a = true → hasInk a2 = true) := by
  intro a
  induction a with
  | nil =>
    intro q b
    refine ⟨[], ?_, fun h => h⟩
    rw [List.nil_append, nlToSpace, if_pos rfl, if_neg (by simp),
      nlToSpace, if_pos rfl, if_neg (by simp), nlToSpace, if_pos rfl, if_neg (by simp)]
    rfl
  | cons c a2 ih =>
    intro q b
    rw [List.cons_append]
    by_cases hc : c = '\n'
    · subst hc
      rw [nlToSpace, if_pos rfl]
      obtain ⟨a3, heq, hink⟩ := ih true b
      refine ⟨(if ¬q = true ∧ (a2 ++ '\n' :: '\n' :: '\n' :: b).head? ≠ some '\n'
          then ' ' else '\n') :: a3, by rw [heq]; rfl, ?_⟩
      intro h
      rw [hasInk_cons] at h
      simp only [Bool.or_eq_true] at h
      rcases h with h | h
      · exact absurd h (by decide)
      · rw [hasInk_cons]
        simp [hink h]
    · rw [nlToSpace, if_neg hc]
      obtain ⟨a3, heq, hink⟩ := ih false b
      refine ⟨c :: a3, by rw [heq]; rfl, ?_⟩
      intro h
      rw [hasInk_cons] at h ⊢
      simp only [Bool.or_eq_true] at h ⊢
      rcases h with h | h
      · exact Or.inl h
      · exact Or.inr (hink h)

/-- A block of newlines commutes past a single newline. -/
theorem rep_nl_shift : ∀ (j : Nat) (R : List Char),
    List.replicate j '\n' ++ '\n' :: R = '\n' :: (List.replicate j '\n' ++ R) := by
  intro j
  induction j with
  | zero => intro R; rfl
  | succ j ih =>
    intro R
    rw [List.replicate_succ, List.cons_append, ih, List.cons_append]

/-- Every text splits into a part not ending in a newline and a trailing
newline block, with the same ink. -/
theorem split_nl_tail : ∀ (a : List Char),
    ∃ a0 j, a = a0 ++ List.replicate j '\n'
      ∧ (∀ e, a0.getLast? = some e → ¬ e = '\n')
      ∧ hasInk a = hasInk a0 := by
  intro a
  induction a using List.reverseRecOn with
  | nil => exact ⟨[], 0, rfl, by simp, rfl⟩
  | append_singleton a' c ih =>
    obtain ⟨a0, j, heq, hlast, hink⟩ := ih
    by_cases hc : c = '\n'
    · subst hc
      refine ⟨a0, j + 1, ?_, hlast, ?_⟩
      · rw [heq, List.append_assoc, ← List.replicate_succ']
      · rw [hasInk_append, hink]
        simp [show hasInk ['\n'] = false from by decide]
    · refine ⟨a' ++ [c], 0, by simp, ?_, by simp⟩
      intro e he
      rw [List.getLast?_concat] at he
      simp only [Option.some_inj] at he
      rw [← he]
      exact hc

/-- The newline-collapse pass turns a newline triple whose run starts at
the triple into exactly one newline pair, preserving ink on the left. -/
theorem collapseNL_triple_split : ∀ (a : List Char) (k : Nat) (b : List Char),
    (a = [] → k = 0) → (∀ e, a.getLast? = some e → ¬ e = '\n') →
    ∃ a2 k2, 2 ≤ k2
      ∧ collapseNL k (a ++ '\n' :: '\n' :: '\n' :: b) = a2 ++ '\n' :: '\n' :: collapseNL k2 b
      ∧ (hasInk a = true → hasInk a2 = true) := by
  intro a
  induction a with
  | nil =>
    intro k b hsync _
    rw [hsync rfl]
    refine ⟨[], 3, by omega, ?_, fun h => h⟩
    rw [List.nil_append, collapseNL, if_pos rfl, if_pos (by omega),
      collapseNL, if_pos rfl, if_pos (by omega), collapseNL, if_pos rfl, if_neg (by omega)]
    rfl
  | cons c a2 ih =>
    intro k b _ hlast
    by_cases hc : c = '\n'
    · subst hc
      rcases a2 with _ | ⟨d, a3⟩
      · exact absurd rfl (hlast '\n' rfl)
      · have hlast' : ∀ e, (d :: a3).getLast? = some e → ¬ e = '\n' := by
          intro e he
          apply hlast
          rw [List.getLast?_cons_cons]
          exact he
        obtain ⟨a4, k2, hk2, heq, hink⟩ := ih (k + 1) b (by simp) hlast'
        rw [List.cons_append, collapseNL, if_pos rfl, heq]
        refine ⟨(if k < 2 then ['\n'] else []) ++ a4, k2, hk2, by rw [List.append_assoc], ?_⟩
        intro h
        rw [hasInk_cons] at h
        simp only [Bool.or_eq_true] at h
        rcases h with h | h
        · exact absurd h (by decide)
        · rw [hasInk_append]
          simp [hink h]
    · have hlast' : ∀ e, a2.getLast? = some e → ¬ e = '\n' := by
        intro e he
        apply hlast
        rcases a2 with _ | ⟨d, a3⟩
        · exact absurd he (by simp)
        · rw [List.getLast?_cons_cons]
          exact he
      obtain ⟨a4, k2, hk2, heq, hink⟩ := ih 0 b (fun _ => rfl) hlast'
      rw [List.cons_append, collapseNL, if_neg hc, heq]
      refine ⟨c :: a4, k2, hk2, rfl, ?_⟩
      intro h
      rw [hasInk_cons] at h ⊢
      simp only [Bool.or_eq_true] at h ⊢
      rcases h with h | h
      · exact Or.inl h
      · exact Or.inr (hink h)

/-- The space-collapse pass maps a text around a newline pair to a text
around the same pair, preserving ink on the left. -/
theorem collapseSp_pair_split : ∀ (a : List Char) (q : Bool) (b : List Char),
    ∃ a2, collapseSp q (a ++ '\n' :: '\n' :: b) = a2 ++ '\n' :: '\n' :: collapseSp false b
      ∧ (hasInk a = true → hasInk a2 = true) := by
  intro a
  induction a with
  | nil =>
    intro q b
    refine ⟨[], ?_, fun h => h⟩
    rw [List.nil_append, collapseSp, if_neg (by decide), collapseSp, if_neg (by decide)]
    rfl
  | cons c a2 ih =>
    intro q b
    rw [List.cons_append]
    by_cases hc : c = ' '
    · subst hc
      rw [collapseSp, if_pos rfl]
      obtain ⟨a3, heq, hink⟩ := ih true b
      rw [heq]
      refine ⟨(if q then [] else [' ']) ++ a3, by rw [List.append_assoc], ?_⟩
      intro h
      rw [hasInk_cons] at h
      simp only [Bool.or_eq_true] at h
      rcases h with h | h
      · exact absurd h (by decide)
      · rw [hasInk_append]
        simp [hink h]
    · rw [collapseSp, if_neg hc]
      obtain ⟨a3, heq, hink⟩ := ih false b
      rw [heq]
      refine ⟨c :: a3, rfl, ?_⟩
      intro h
      rw [hasInk_cons] at h ⊢
      simp only [Bool.or_eq_true] at h ⊢
      rcases h with h | h
      · exact Or.inl h
      · exact Or.inr (hink h)

/-- A word-character prefix of `a ++ e :: rest` with `e` a non-word
character stays inside `a`. -/
theorem word_prefix_length_le (wr a2 : List Char) (e : Char) (rest : List Char)
    (hwr : ∀ c ∈ wr, isWordChar c = true) (he : isWordChar e = false)
    (hpre : wr <+: a2 ++ e :: rest) : wr.length ≤ a2.length := by
  by_contra hlt
  push_neg at hlt
  have h1 : a2 <+: wr :=
    List.prefix_of_prefix_length_le (List.prefix_append _ _) hpre (by omega)
  obtain ⟨t, ht⟩ := h1
  rcases t with _ | ⟨d, ds⟩
  · have := congrArg List.length ht
    simp at this
    omega
  · have hd : isWordChar d = true := hwr d (by rw [← ht]; simp)
    have hts : (d :: ds) <+: e :: rest := by
      rw [← List.prefix_append_right_inj a2, ht]
      exact hpre
    rcases List.cons_prefix_cons.mp hts with ⟨hde, -⟩
    rw [hde, he] at hd
    exact Bool.false_ne_true hd

/-- The whole-word substitution maps a text around a newline pair to a
text around the same pair (no match can cover a newline), preserving ink
on the left. -/
theorem replaceWord_pair_split (w0 : Char) (wr repl : List Char)
    (hw0 : isWordChar w0 = true) (hwr : ∀ c ∈ wr, isWordChar c = true)
    (hri : hasInk repl = true) :
    ∀ (n : Nat) (a : List Char), a.length ≤ n → ∀ (p : Bool) (b : List Char),
    ∃ a2, replaceWord w0 wr repl p (a ++ '\n' :: '\n' :: b)
        = a2 ++ '\n' :: '\n' :: replaceWord w0 wr repl false b
      ∧ (hasInk a = true → hasInk a2 = true) := by
  intro n
  induction n with
  | zero =>
    intro a ha p b
    have ha0 : a = [] := List.length_eq_zero.mp (Nat.le_zero.mp ha)
    subst ha0
    refine ⟨[], ?_, fun h => h⟩
    rw [List.nil_append,
      replaceWord_cons_nofire (by rintro ⟨hc, -⟩; exact wordChar_ne_nl hw0 hc.symm),
      replaceWord_cons_nofire (by rintro ⟨hc, -⟩; exact wordChar_ne_nl hw0 hc.symm)]
    rfl
  | succ n ih =>
    intro a ha p b
    rcases a with _ | ⟨c, a2⟩
    · refine ⟨[], ?_, fun h => h⟩
      rw [List.nil_append,
        replaceWord_cons_nofire (by rintro ⟨hc, -⟩; exact wordChar_ne_nl hw0 hc.symm),
        replaceWord_cons_nofire (by rintro ⟨hc, -⟩; exact wordChar_ne_nl hw0 hc.symm)]
      rfl
    · rw [List.cons_append]
      by_cases hfire : c = w0 ∧ p = false ∧
          wr.isPrefixOf (a2 ++ '\n' :: '\n' :: b) = true ∧
          headNotWord ((a2 ++ '\n' :: '\n' :: b).drop wr.length) = true
      · rw [replaceWord_cons_fire hfire]
        obtain ⟨-, -, hpre, -⟩ := hfire
        have hlen : wr.length ≤ a2.length :=
          word_prefix_length_le wr a2 '\n' ('\n' :: b) hwr (by decide)
            (List.isPrefixOf_iff_prefix.mp hpre)
        rw [List.drop_append_of_le_length hlen]
        obtain ⟨a3, heq, hink⟩ := ih (a2.drop wr.length)
          (by simp only [List.length_cons] at ha; have := List.length_drop wr.length a2 ▸
            Nat.sub_le a2.length wr.length; omega) true b
        rw [heq]
        refine ⟨repl ++ a3, by rw [List.append_assoc], ?_⟩
        intro _
        rw [hasInk_append]
        simp [hri]
      · rw [replaceWord_cons_nofire hfire]
        obtain ⟨a3, heq, hink⟩ := ih a2
          (by simp only [List.length_cons] at ha; omega) (isWordChar c) b
        rw [heq]
        refine ⟨c :: a3, rfl, ?_⟩
        intro h
        rw [hasInk_cons] at h ⊢
        simp only [Bool.or_eq_true] at h ⊢
        rcases h with h | h
        · exact Or.inl h
        · exact Or.inr (hink h)

/-- Claim C7 (amended): for a text consisting of a run of three (or more)
consecutive newlines with non-whitespace characters somewhere on each
side, `clean_pdf_text` outputs a text containing a two-newline paragraph
break and no three consecutive newlines anywhere.  (As literally stated
the claim fails: when one side holds no ink the collapsed pair is
whitespace-stripped away — see `c7_counterexample`.) -/
theorem c7_newline_collapse (a b : List Char) (hina : hasInk a = true)
    (hinb : hasInk b = true) :
    ('\n' :: ['\n']) <:+: clean_pdf_text (a ++ '\n' :: '\n' :: '\n' :: b)
      ∧ ¬ (('\n' :: '\n' :: ['\n']) <:+: clean_pdf_text (a ++ '\n' :: '\n' :: '\n' :: b)) := by
  refine ⟨?_, nlPairs_no_triple _ 0 (clean_nlPairs _)⟩
  rw [clean_pdf_text]
  obtain ⟨a1, h1, i1⟩ := hyphenJoin_triple_split a.length a (le_refl _) .non b
  rw [h1]
  set B0 := hyphenJoin .non b with hB0
  obtain ⟨a2, h2, i2⟩ := nlToSpace_triple_split a1 false B0
  rw [h2]
  set B1 := nlToSpace true B0 with hB1
  obtain ⟨a20, j, heq20, hlast20, hink20⟩ := split_nl_tail a2
  have hshift : a2 ++ '\n' :: '\n' :: '\n' :: B1
      = a20 ++ '\n' :: '\n' :: '\n' :: (List.replicate j '\n' ++ B1) := by
    rw [heq20, List.append_assoc, rep_nl_shift, rep_nl_shift, rep_nl_shift]
  rw [hshift]
  set B2 := List.replicate j '\n' ++ B1 with hB2
  obtain ⟨a3, k2, hk2, h3, i3⟩ := collapseNL_triple_split a20 0 B2 (fun _ => rfl) hlast20
  rw [h3]
  set B3 := collapseNL k2 B2 with hB3
  obtain ⟨a4, h4, i4⟩ := collapseSp_pair_split a3 false B3
  rw [h4]
  set B4 := collapseSp false B3 with hB4
  obtain ⟨a5, h5, i5⟩ := replaceWord_pair_split 'A' ['l'] ('A' :: ['I'])
    (by decide) (by decide) (by decide) a4.length a4 (le_refl _) false B4
  rw [show fixAl (a4 ++ '\n' :: '\n' :: B4)
    = a5 ++ '\n' :: '\n' :: replaceWord 'A' ['l'] ('A' :: ['I']) false B4 from h5]
  set B5 := replaceWord 'A' ['l'] ('A' :: ['I']) false B4 with hB5
  obtain ⟨a6, h6, i6⟩ := replaceWord_pair_split 'O' "penAl".data "OpenAI".data
    (by decide) (by decide) (by decide) a5.length a5 (le_refl _) false B5
  rw [show fixOpenAl (a5 ++ '\n' :: '\n' :: B5)
    = a6 ++ '\n' :: '\n' :: replaceWord 'O' "penAl".data "OpenAI".data false B5 from h6]
  set B6 := replaceWord 'O' "penAl".data "OpenAI".data false B5 with hB6
  obtain ⟨a7, h7, i7⟩ := replaceWord_pair_split 'E' ['l'] ('A' :: ['I'])
    (by decide) (by decide) (by decide) a6.length a6 (le_refl _) false B6
  rw [show fixEl (a6 ++ '\n' :: '\n' :: B6)
    = a7 ++ '\n' :: '\n' :: replaceWord 'E' ['l'] ('A' :: ['I']) false B6 from h7]
  set B7 := replaceWord 'E' ['l'] ('A' :: ['I']) false B6 with hB7
  rw [stripWS]
  have ia20 : hasInk a20 = true := by
    rw [← hink20]
    exact i2 (i1 hina)
  have ia7 : hasInk a7 = true := i7 (i6 (i5 (i4 (i3 ia20))))
  have hdw : (a7 ++ '\n' :: '\n' :: B7).dropWhile isSpaceChar
      = a7.dropWhile isSpaceChar ++ '\n' :: '\n' :: B7 := by
    rw [List.dropWhile_append,
      if_neg (by simpa using dropWhile_ne_nil_of_ink a7 ia7)]
  rw [hdw]
  have ib7 : hasInk B7 = true := by
    refine ink_replaceWord 'E' ['l'] ('A' :: ['I']) (by decide) false B6 ?_
    refine ink_replaceWord 'O' "penAl".data "OpenAI".data (by decide) false B5 ?_
    refine ink_replaceWord 'A' ['l'] ('A' :: ['I']) (by decide) false B4 ?_
    refine ink_collapseSp B3 false ?_
    refine ink_collapseNL B2 k2 ?_
    rw [hB2, hasInk_append, ink_nlToSpace B0 true (ink_hyphenJoin .non b hinb)]
    simp
  have hsh2 : a7.dropWhile isSpaceChar ++ '\n' :: '\n' :: B7
      = (a7.dropWhile isSpaceChar ++ ('\n' :: ['\n'])) ++ B7 := by
    rw [List.append_assoc]
    rfl
  rw [hsh2, rstrip_append B7 (rstrip_ne_nil_of_ink B7 ib7) _]
  exact ⟨a7.dropWhile isSpaceChar, rstrip B7, rfl⟩

/-- Witness for C7 (amended): `"x\n\n\ny"` cleans to a text containing the
paragraph break `"\n\n"` and no newline triple. -/
theorem c7_newline_collapse_witness :
    ('\n' :: ['\n']) <:+: clean_pdf_text ("x".data ++ '\n' :: '\n' :: '\n' :: "y".data)
      ∧ ¬ (('\n' :: '\n' :: ['\n']) <:+:
        clean_pdf_text ("x".data ++ '\n' :: '\n' :: '\n' :: "y".data)) :=
  c7_newline_collapse "x".data "y".data (by decide) (by decide)
